import Mathlib

/-!
Verification development for the planner SDK core (plan parser, path
utilities, JSON-Schema validator and DAG executor).

The TypeScript sources are shallowly embedded as Lean definitions:

* pure string functions work on `List Char` (a `String` is its list of
  characters);
* JavaScript `Map`s become Lean functions into `Option`;
* code that `throw`s becomes `Except String`;
* the recursive argument-value type `ParamsValue` becomes the mutual
  inductive family `Value`/`VList`/`VFields` (the tagged variant the
  specification itself names as the natural lowering of shape-dispatch);
* JavaScript numbers are modelled as integers; no verified property
  depends on non-integral numerics.
-/

namespace Planner

/-! ## Decimal rendering of numbers

JavaScript's implicit number-to-string conversion renders a natural
number in decimal.  The fuel-indexed helper keeps the definition
structural. -/

def digCh : Nat → Char
  | 0 => '0' | 1 => '1' | 2 => '2' | 3 => '3' | 4 => '4'
  | 5 => '5' | 6 => '6' | 7 => '7' | 8 => '8' | _ => '9'

def digVal (c : Char) : Nat := c.toNat - 48

def natDigsGo : Nat → Nat → List Char
  | 0, _ => []
  | fuel + 1, n => if n < 10 then [digCh n] else natDigsGo fuel (n / 10) ++ [digCh (n % 10)]

def natDigs (n : Nat) : List Char := natDigsGo (n + 1) n

def intDecChars (n : Int) : List Char :=
  if n < 0 then '-' :: natDigs (-n).toNat else natDigs n.toNat

def digitsVal (cs : List Char) : Nat := cs.foldl (fun a c => 10 * a + digVal c) 0

/-! ## Path parsing and formatting

Model of `parsePath` / `formatPath` / `normalizePath` from the source's
path utilities.  A path segment is a string key or a numeric index
(JavaScript `string | number`). -/

inductive PathSeg where
  | str (s : String)
  | idx (n : Int)
  deriving DecidableEq, Repr

abbrev Path := List PathSeg

/-- Characters of the internal index-marker sentinel `"\0IDX:"`. -/
def idxMark : List Char := ['\x00', 'I', 'D', 'X', ':']

def dropWhile_len {p : α → Bool} {l : List α} :
    (l.dropWhile p).length ≤ l.length :=
  (List.dropWhile_sublist p).length_le

def dropWhile_cons_len {p : Char → Bool} {l r : List Char} {c : Char}
    (h : l.dropWhile p = c :: r) : r.length < l.length := by
  have h1 : (l.dropWhile p).length ≤ l.length := dropWhile_len
  rw [h] at h1
  simp at h1
  omega

/-- One global pass of `path.replace(/\[(\d+)\]/g, (_, i) => "." + marker(i))`:
each bracketed digit run is rewritten to a dot followed by the index
marker; like the regex engine, a failed match advances one character. -/
def replIdx : List Char → List Char
  | [] => []
  | c :: rest =>
    if c = '[' then
      match h : rest.dropWhile Char.isDigit with
      | ']' :: after =>
        if rest.takeWhile Char.isDigit = [] then c :: replIdx rest
        else '.' :: idxMark ++ rest.takeWhile Char.isDigit ++ replIdx after
      | _ => c :: replIdx rest
    else c :: replIdx rest
termination_by cs => cs.length
decreasing_by
  all_goals simp_all
  all_goals first
  | omega
  | (have h2 := dropWhile_cons_len h
     simp at h2
     omega)

/-- One global pass of `path.replace(/\["([^"]+)"\]/g, ".$1")`. -/
def replDQ : List Char → List Char
  | [] => []
  | [c] => [c]
  | c :: d :: rest =>
    if c = '[' ∧ d = '"' then
      match h : rest.dropWhile (· ≠ '"') with
      | '"' :: ']' :: after =>
        if rest.takeWhile (· ≠ '"') = [] then c :: replDQ (d :: rest)
        else '.' :: rest.takeWhile (· ≠ '"') ++ replDQ after
      | _ => c :: replDQ (d :: rest)
    else c :: replDQ (d :: rest)
termination_by cs => cs.length
decreasing_by
  all_goals simp_all
  all_goals first
  | omega
  | (have h2 := dropWhile_cons_len h
     simp at h2
     omega)

/-- One global pass of `path.replace(/\['([^']+)'\]/g, ".$1")`. -/
def replSQ : List Char → List Char
  | [] => []
  | [c] => [c]
  | c :: d :: rest =>
    if c = '[' ∧ d = '\'' then
      match h : rest.dropWhile (· ≠ '\'') with
      | '\'' :: ']' :: after =>
        if rest.takeWhile (· ≠ '\'') = [] then c :: replSQ (d :: rest)
        else '.' :: rest.takeWhile (· ≠ '\'') ++ replSQ after
      | _ => c :: replSQ (d :: rest)
    else c :: replSQ (d :: rest)
termination_by cs => cs.length
decreasing_by
  all_goals simp_all
  all_goals first
  | omega
  | (have h2 := dropWhile_cons_len h
     simp at h2
     omega)

/-- Model of `normalizeToSegments`: empty in, empty out; otherwise the three
sequential global replaces. -/
def normalizeToSegments (s : String) : String :=
  if s = "" then "" else ⟨replSQ (replDQ (replIdx s.data))⟩

/-- Model of `String.prototype.split('.')` on the character list. -/
def splitDotGo (acc : List Char) : List Char → List (List Char)
  | [] => [acc.reverse]
  | c :: r => if c = '.' then acc.reverse :: splitDotGo [] r else splitDotGo (c :: acc) r

def isIdxMarker (cs : List Char) : Bool := idxMark.isPrefixOf cs

/-- Model of the `.map` body of `parsePath`: an index-marker segment becomes a
numeric index (`Number` of its digit payload), anything else stays a string
key.  (`Number` applied to a non-digit payload would be `NaN` in JavaScript;
markers only ever carry digit payloads, and no claim touches raw NUL input.) -/
def segOf (cs : List Char) : PathSeg :=
  if isIdxMarker cs then .idx (digitsVal (cs.drop 5) : Nat) else .str ⟨cs⟩

/-- Model of `parsePath`. -/
def parsePath (s : String) : Path :=
  let n := normalizeToSegments s
  if n = "" then []
  else ((splitDotGo [] n.data).filter (· ≠ [])).map segOf

/-- Accumulator step of `formatPath`'s reduce: a numeric segment renders as
`[i]`, a string segment with a `.` separator unless the accumulator is
still empty. -/
def fmtStep (acc : String) (part : PathSeg) : String :=
  match part with
  | .idx n => acc ++ "[" ++ (⟨intDecChars n⟩ : String) ++ "]"
  | .str s => if acc = "" then s else acc ++ "." ++ s

/-- Model of `formatPath` (the `Array.prototype.reduce` over segments). -/
def formatPath (p : Path) : String :=
  p.foldl fmtStep ""

/-- Model of `normalizePath`. -/
def normalizePath (s : String) : String := formatPath (parsePath s)

/-- Model of `isNumericString` (`/^\d+$/`). -/
def isNumericString (s : String) : Bool :=
  s.data ≠ [] && s.data.all Char.isDigit

/-! ## Round-trip analysis of `parsePath` after `formatPath`

A path segment round-trips when formatting cannot smuggle in separator
or bracket syntax: a string segment must be nonempty, free of `.` and
`[`, and must not begin with the internal index-marker sentinel; an
integer segment must be non-negative. -/

def goodSeg : PathSeg → Prop
  | .idx n => 0 ≤ n
  | .str s => s ≠ "" ∧ '.' ∉ s.data ∧ '[' ∉ s.data ∧ isIdxMarker s.data = false

instance : DecidablePred goodSeg := fun seg =>
  match seg with
  | .idx _ => inferInstanceAs (Decidable (0 ≤ _))
  | .str _ => inferInstanceAs (Decidable (_ ∧ _ ∧ _ ∧ _))

/-- Character block a non-leading segment contributes to `formatPath`. -/
def chunkRest : PathSeg → List Char
  | .str s => '.' :: s.data
  | .idx n => '[' :: intDecChars n ++ [']']

/-- Character block a leading segment contributes to `formatPath`. -/
def chunkFirst : PathSeg → List Char
  | .str s => s.data
  | .idx n => '[' :: intDecChars n ++ [']']

/-- Dot-free body each segment contributes after bracket rewriting. -/
def segBody : PathSeg → List Char
  | .str s => s.data
  | .idx n => idxMark ++ intDecChars n

/-- Leading character block of the normalized form. -/
def leadChunk : PathSeg → List Char
  | .str s => s.data
  | .idx n => '.' :: idxMark ++ intDecChars n

/-! ## The template-string compiler

Model of `parseTemplateString`: scan a string with the pattern
`\{(\d+)(?:\.([^}]+))?\}`, rewriting each placeholder that names a step of
the plan into a positional slot over a list of dependency references. -/

/-- A dependency reference `{ $fromStep, $outputKey }`. -/
structure DepRef where
  fromStep : String
  outputKey : String
  deriving DecidableEq, Repr

/-- A template reference `{ $fromTemplateString, $values }`. -/
structure TplRef where
  fromTemplateString : String
  values : List DepRef
  deriving DecidableEq, Repr

/-- One match of the numeric-placeholder pattern: start index, full length,
captured digit run, optional captured path (the `[^}]+` group). -/
structure TMatch where
  start : Nat
  flen : Nat
  idxStr : List Char
  path : Option (List Char)
  deriving DecidableEq, Repr

/-- Attempt to complete a match just after an opening `{`: a nonempty digit
run, then either a closing `}` or a `.` followed by a nonempty run of
non-`}` characters and a closing `}`.  Returns the captures and the
characters after the match.  (The regex needs no backtracking here: the
character after a maximal digit run is never a digit, and `[^}]+` always
ends at the first `}`.) -/
def tryM (rest : List Char) : Option (List Char × Option (List Char) × List Char) :=
  if rest.takeWhile Char.isDigit = [] then none
  else
    match rest.dropWhile Char.isDigit with
    | '}' :: after => some (rest.takeWhile Char.isDigit, none, after)
    | '.' :: r2 =>
      if r2.takeWhile (· ≠ '}') = [] then none
      else
        match r2.dropWhile (· ≠ '}') with
        | '}' :: after =>
          some (rest.takeWhile Char.isDigit, some (r2.takeWhile (· ≠ '}')), after)
        | _ => none
    | _ => none

/-- Full character run of a match (`m[0]` in JavaScript). -/
def matchChars (m : TMatch) : List Char :=
  '{' :: m.idxStr ++ (match m.path with | none => [] | some p => '.' :: p) ++ ['}']

/-- Model of `Array.from(tpl.matchAll(NUMERIC_PLACEHOLDER))`: ordered,
non-overlapping matches with their start positions.  The fuel argument
keeps the recursion structural; one character of fuel per character of
input always suffices, since a match consumes at least its own length. -/
def scanTGo : Nat → List Char → Nat → List TMatch
  | 0, _, _ => []
  | fuel + 1, cs, pos =>
    match cs with
    | [] => []
    | c :: rest =>
      if c = '{' then
        match tryM rest with
        | some (ds, po, after) =>
          let fl := 1 + ds.length + (match po with | none => 1 | some p => 1 + p.length + 1)
          ⟨pos, fl, ds, po⟩ :: scanTGo fuel after (pos + fl)
        | none => scanTGo fuel rest (pos + 1)
      else scanTGo fuel rest (pos + 1)

def scanT (cs : List Char) (pos : Nat) : List TMatch := scanTGo (cs.length + 1) cs pos

/-- JavaScript `s.slice(a, b)` on a character list. -/
def sliceJS (cs : List Char) (a b : Nat) : List Char := (cs.take b).drop a

/-- Positional marker `{k}` used in rewritten template strings. -/
def markerChars (k : Nat) : List Char := '{' :: natDigs k ++ ['}']

/-- Model of `parseTemplateString` (the accumulator loop of the source):
`values` and `result` grow left to right, and `lastIndex` tracks the end of
the previous match.  An index bound to no step id — or, as in JavaScript's
falsy test, to an empty one — leaves the match text verbatim. -/
def tplLoop (tpl : List Char) (idMap : Nat → Option String) :
    List TMatch → List DepRef → List Char → Nat → List Char × List DepRef
  | [], values, result, lastIndex => (result ++ tpl.drop lastIndex, values)
  | m :: ms, values, result, lastIndex =>
    if m.idxStr = [] then
      tplLoop tpl idMap ms values (result ++ sliceJS tpl lastIndex (m.start + m.flen))
        (m.start + m.flen)
    else
      match idMap (digitsVal m.idxStr) with
      | none =>
        tplLoop tpl idMap ms values (result ++ sliceJS tpl lastIndex (m.start + m.flen))
          (m.start + m.flen)
      | some sid =>
        if sid = "" then
          tplLoop tpl idMap ms values (result ++ sliceJS tpl lastIndex (m.start + m.flen))
            (m.start + m.flen)
        else
          tplLoop tpl idMap ms
            (values ++ [⟨sid, match m.path with
              | some p => normalizePath ⟨p⟩
              | none => ""⟩])
            (result ++ sliceJS tpl lastIndex m.start ++ markerChars values.length)
            (m.start + m.flen)

/-- Model of `parseTemplateString`.  `Sum.inl` is the string result (the
original template), `Sum.inr` a structured template reference. -/
def parseTemplateString (tpl : String) (idMap : Nat → Option String) :
    String ⊕ TplRef :=
  let ms := scanT tpl.data 0
  if ms = [] then .inl tpl
  else
    let rv := tplLoop tpl.data idMap ms [] [] 0
    if rv.2 = [] then .inl tpl
    else .inr ⟨⟨rv.1⟩, rv.2⟩

/-! ## The template compiler against its specification

`tplSpec` restates the compiler the way the specification words it: walk the
ordered matches; a match whose index is not in the id map is left verbatim;
a match whose index is in the map emits a value record and is replaced by
`{k}` where `k` is the record's emission position; zero bound values give
back the original string. -/

/-- Value record a bound match emits, per the specification:
`{$fromStep: idOf(i), $outputKey: p ? normalize(p) : ""}`. -/
def specRef (idMap : Nat → Option String) (m : TMatch) : DepRef :=
  ⟨(idMap (digitsVal m.idxStr)).getD "",
    match m.path with
    | some p => normalizePath ⟨p⟩
    | none => ""⟩

/-- Specification-side rewriting: `k` counts the values emitted so far and
`pos` is the position the next slice starts from. -/
def tplSpec (tpl : List Char) (idMap : Nat → Option String) :
    List TMatch → Nat → Nat → List Char × List DepRef
  | [], _, pos => (tpl.drop pos, [])
  | m :: ms, k, pos =>
    if (idMap (digitsVal m.idxStr)).isSome then
      let rv := tplSpec tpl idMap ms (k + 1) (m.start + m.flen)
      (sliceJS tpl pos m.start ++ markerChars k ++ rv.1, specRef idMap m :: rv.2)
    else
      let rv := tplSpec tpl idMap ms k (m.start + m.flen)
      (sliceJS tpl pos m.start ++ sliceJS tpl m.start (m.start + m.flen) ++ rv.1, rv.2)

/-- Template compilation as the specification words it. -/
def templateCompileSpec (tpl : String) (idMap : Nat → Option String) :
    String ⊕ TplRef :=
  let rv := tplSpec tpl.data idMap (scanT tpl.data 0) 0 0
  if rv.2 = [] then .inl tpl else .inr ⟨⟨rv.1⟩, rv.2⟩

/-- Well-formedness of a scanned match list: matches sit at increasing,
non-overlapping positions and always capture a nonempty digit run. -/
def ScanInv (pos : Nat) : List TMatch → Prop
  | [] => True
  | m :: ms => pos ≤ m.start ∧ m.idxStr ≠ [] ∧ ScanInv (m.start + m.flen) ms

/-- Identifier map of the specification's template-rewrite scenario:
index 0 carries the fresh id `sid-A`. -/
def demoIdMap : Nat → Option String := fun i => if i = 0 then some "sid-A" else none

/-! ## Argument values

`ParamsValue` from the source's type definitions, as a mutual inductive
family (`Value` with its own list and record spines), together with the
`unknown`-typed JSON values the parser receives (`JValue`).  A dependency
or template reference is recognized in the source by the presence of its
sentinel keys; on values of the declared `ParamsValue` type this agrees
with the tagged constructors used here. -/

mutual
inductive Value where
  | str (s : String)
  | num (n : Int)
  | bool (b : Bool)
  | null
  | arr (l : VList)
  | obj (fields : VFields)
  | dep (r : DepRef)
  | tpl (t : TplRef)
  deriving DecidableEq, Repr
inductive VList where
  | nil
  | cons (v : Value) (tl : VList)
  deriving DecidableEq, Repr
inductive VFields where
  | nil
  | cons (k : String) (v : Value) (tl : VFields)
  deriving DecidableEq, Repr
end

mutual
inductive JValue where
  | str (s : String)
  | num (n : Int)
  | bool (b : Bool)
  | null
  | arr (l : JList)
  | obj (fields : JFields)
  deriving DecidableEq, Repr
inductive JList where
  | nil
  | cons (v : JValue) (tl : JList)
  deriving DecidableEq, Repr
inductive JFields where
  | nil
  | cons (k : String) (v : JValue) (tl : JFields)
  deriving DecidableEq, Repr
end

/-- First binding of a key in a JSON record (JavaScript property access). -/
def jLookup : JFields → String → Option JValue
  | .nil, _ => none
  | .cons k v tl, key => if k = key then some v else jLookup tl key

def jHasKey (fields : JFields) (key : String) : Bool := (jLookup fields key).isSome

/-- Model of `isRawDependencyReference`: an object bearing both a
`fromStep` and an `outputKey` key. -/
def isRawRef (fields : JFields) : Bool :=
  jHasKey fields "fromStep" && jHasKey fields "outputKey"

/-- Key lookup in an argument record. -/
def vLookup : VFields → String → Option Value
  | .nil, _ => none
  | .cons k v tl, key => if k = key then some v else vLookup tl key

def vHasKey (fields : VFields) (key : String) : Bool := (vLookup fields key).isSome

/-- Map lookup `stepIdByIndex.get(ref.fromStep)`: only an integral,
in-range numeric key finds an entry. -/
def refStepId (idMap : Nat → Option String) : Option JValue → Option String
  | some (.num n) => if 0 ≤ n then idMap n.toNat else none
  | _ => none

/-! `jHasRawIdx`: does a JSON value contain, at any depth, a raw reference
object whose `fromStep` is the integer `i`? -/

mutual
def jHasRawIdx : JValue → Int → Bool
  | .obj fields, i =>
    (isRawRef fields && jLookup fields "fromStep" == some (.num i))
      || jHasRawIdxF fields i
  | .arr l, i => jHasRawIdxL l i
  | _, _ => false
def jHasRawIdxL : JList → Int → Bool
  | .nil, _ => false
  | .cons v tl, i => jHasRawIdx v i || jHasRawIdxL tl i
def jHasRawIdxF : JFields → Int → Bool
  | .nil, _ => false
  | .cons _ v tl, i => jHasRawIdx v i || jHasRawIdxF tl i
end

/-! `noRaw`: no object anywhere in a transformed value carries both
raw-reference keys. -/

mutual
def noRaw : Value → Bool
  | .obj fields => !(vHasKey fields "fromStep" && vHasKey fields "outputKey") && noRawF fields
  | .arr l => noRawL l
  | _ => true
def noRawL : VList → Bool
  | .nil => true
  | .cons v tl => noRaw v && noRawL tl
def noRawF : VFields → Bool
  | .nil => true
  | .cons _ v tl => noRaw v && noRawF tl
end

/-! ## The plan-step transformer

Model of `transformParamsValue` / `transformParams` / `parsePlanSteps`.
The JSON5 decoding, the zod shape validation and the UUID generator are
outside the embedding: `parsePlanSteps` starts from the shape-validated
plan elements and takes the stream of fresh identifiers as an argument. -/

mutual
def transformParamsValue (idMap : Nat → Option String) : JValue → Except String Value
  | .arr l =>
    match transformL idMap l with
    | .ok l2 => .ok (.arr l2)
    | .error e => .error e
  | .str s =>
    match parseTemplateString s idMap with
    | .inl s2 => .ok (.str s2)
    | .inr t => .ok (.tpl t)
  | .obj fields =>
    if isRawRef fields then
      match refStepId idMap (jLookup fields "fromStep") with
      | none => .error "Invalid dependency reference: step not found"
      | some stepId =>
        match jLookup fields "outputKey" with
        | some (.str key) => .ok (.dep ⟨stepId, normalizePath key⟩)
        | _ => .error "TypeError: path.replace is not a function"
    else
      match transformF idMap fields with
      | .ok f2 => .ok (.obj f2)
      | .error e => .error e
  | .num n => .ok (.num n)
  | .bool b => .ok (.bool b)
  | .null => .ok .null
def transformL (idMap : Nat → Option String) : JList → Except String VList
  | .nil => .ok .nil
  | .cons v tl =>
    match transformParamsValue idMap v with
    | .ok v2 =>
      match transformL idMap tl with
      | .ok tl2 => .ok (.cons v2 tl2)
      | .error e => .error e
    | .error e => .error e
def transformF (idMap : Nat → Option String) : JFields → Except String VFields
  | .nil => .ok .nil
  | .cons k v tl =>
    match transformParamsValue idMap v with
    | .ok v2 =>
      match transformF idMap tl with
      | .ok tl2 => .ok (.cons k v2 tl2)
      | .error e => .error e
    | .error e => .error e
end

/-- Model of `transformParams`: field-wise transformation of the top-level
argument record (no reference shape check at the root). -/
def transformParams (idMap : Nat → Option String) (params : JFields) :
    Except String VFields :=
  transformF idMap params

inductive PlanStepStatus where
  | pending | executing | done | failed | skipped | timeout
  deriving DecidableEq, Repr

/-- A shape-validated plan element (`toolName`, `arguments`, `thought?`). -/
structure RawStep where
  toolName : String
  arguments : JFields
  thought : Option String
  deriving DecidableEq, Repr

structure PlanStep where
  stepId : String
  status : PlanStepStatus
  toolName : String
  arguments : VFields
  thought : Option String
  deriving DecidableEq, Repr

/-- Exception-propagating map, as a JavaScript `Array.prototype.map` whose
body may throw. -/
def mapMEx (f : α → Except String β) : List α → Except String (List β)
  | [] => .ok []
  | a :: l =>
    match f a with
    | .ok b =>
      match mapMEx f l with
      | .ok bs => .ok (b :: bs)
      | .error e => .error e
    | .error e => .error e

/-- Model of `parsePlanSteps` from the shape-validated plan onward: assign
a fresh identifier to every index, then transform each step's arguments
against the full index-to-id map. -/
def parsePlanSteps (rawPlan : List RawStep) (ids : Nat → String) :
    Except String (List PlanStep) :=
  let stepIdByIndex : Nat → Option String :=
    fun i => if i < rawPlan.length then some (ids i) else none
  mapMEx
    (fun p =>
      match transformParams stepIdByIndex p.2.arguments with
      | .ok args =>
        .ok { stepId := ids p.1, status := .pending, toolName := p.2.toolName,
              arguments := args, thought := p.2.thought }
      | .error e => .error e)
    rawPlan.enum

/-- Arguments holding a raw reference whose extra field nests another raw
reference with the out-of-plan index 7. -/
def cexArgs : JFields :=
  .cons "a"
    (.obj (.cons "fromStep" (.num 0)
      (.cons "outputKey" (.str "k")
        (.cons "x"
          (.obj (.cons "fromStep" (.num 7) (.cons "outputKey" (.str "z") .nil)))
          .nil))))
    .nil

def cexPlan : List RawStep := [⟨"toolA", cexArgs, none⟩]

def cexIds : Nat → String := fun i => ⟨'i' :: 'd' :: '-' :: natDigs i⟩

/-! ## Compiled schema nodes

The validator compiles each tool's JSON-Schema into a zod schema tree and
walks it.  `ZSchema` mirrors the zod node classes the validator
distinguishes (`ZodAny`, `ZodUnknown`, `ZodNever`, primitives, `ZodArray`,
`ZodTuple` for `prefixItems`, `ZodObject` with its catchall, `ZodUnion`,
`ZodXor`, `ZodLiteral`, `ZodEnum`, and the `ZodOptional` / `ZodDefault` /
`ZodNullable` wrappers). -/

inductive LitVal where
  | s (v : String)
  | n (v : Int)
  | b (v : Bool)
  deriving DecidableEq, Repr

mutual
inductive ZSchema where
  | any | unknown | never
  | string | number | boolean | null
  | array (elem : ZSchema)
  | tuple (items : ZSList)
  | obj (shape : ZFieldsS) (catchall : ZCatch)
  | union (options : ZSList)
  | xor (options : ZSList)
  | literal (v : LitVal)
  | enum (vs : List String)
  | optional (inner : ZSchema)
  | withDefault (inner : ZSchema)
  | nullable (inner : ZSchema)
  deriving DecidableEq, Repr
inductive ZSList where
  | nil
  | cons (s : ZSchema) (tl : ZSList)
  deriving DecidableEq, Repr
inductive ZFieldsS where
  | nil
  | cons (k : String) (s : ZSchema) (tl : ZFieldsS)
  deriving DecidableEq, Repr
inductive ZCatch where
  | none
  | some (s : ZSchema)
  deriving DecidableEq, Repr
end

/-- Model of `unwrapSchema`: strip optional/default/nullable wrappers. -/
def unwrapSchema : ZSchema → ZSchema
  | .optional t => unwrapSchema t
  | .withDefault t => unwrapSchema t
  | .nullable t => unwrapSchema t
  | s => s

def zfLookupS : ZFieldsS → String → Option ZSchema
  | .nil, _ => none
  | .cons k s tl, key => if k = key then some s else zfLookupS tl key

/-- Model of `getObjectChildSchema`: the declared field, else a concrete
catchall (not unknown/any/never), else `any` for an empty shape. -/
def getObjectChildSchema (shape : ZFieldsS) (catchall : ZCatch) (segment : String) :
    Option ZSchema :=
  match zfLookupS shape segment with
  | some direct => some direct
  | none =>
    match catchall with
    | .some c =>
      if c = .unknown ∨ c = .any ∨ c = .never then
        if shape = .nil then some .any else none
      else some c
    | .none => if shape = .nil then some .any else none

/-- Combine the options that admitted the remaining path, as the source
does: none → failure, one → that schema, several → their union. -/
def unionResult : ZSList → Option ZSchema
  | .nil => none
  | .cons one .nil => some one
  | more => some (.union more)

/-! `gsapSeg`: one segment-consuming step of `getSchemaAtPath`, with `next`
the resolution of the remaining path.  Wrappers are unwrapped, unions and
exclusive unions resolve the whole remaining path in each option
independently, an integer (or decimal-string) segment advances through a
`ZodArray` only, and a string segment selects an object child. -/

mutual
def gsapSeg (next : ZSchema → Option ZSchema) (seg : PathSeg) : ZSchema → Option ZSchema
  | .optional t => gsapSeg next seg t
  | .withDefault t => gsapSeg next seg t
  | .nullable t => gsapSeg next seg t
  | .union opts => unionResult (gsapOpts next seg opts)
  | .xor opts => unionResult (gsapOpts next seg opts)
  | .array e =>
    match seg with
    | .idx _ => next e
    | .str s => if isNumericString s then next e else none
  | .obj shape catchall =>
    match seg with
    | .idx _ => none
    | .str s =>
      match getObjectChildSchema shape catchall s with
      | some child => next child
      | none => none
  | _ => none
def gsapOpts (next : ZSchema → Option ZSchema) (seg : PathSeg) : ZSList → ZSList
  | .nil => .nil
  | .cons s tl =>
    match gsapSeg next seg s with
    | some r => .cons r (gsapOpts next seg tl)
    | none => gsapOpts next seg tl
end

def gsapPath : List PathSeg → ZSchema → Option ZSchema
  | [], s => some (unwrapSchema s)
  | seg :: rest, s => gsapSeg (gsapPath rest) seg s

/-- Model of `getSchemaAtPath`. -/
def getSchemaAtPath (schema : ZSchema) (path : List PathSeg) : Option ZSchema :=
  gsapPath path schema

/-- Collection of the options of a union that admit the remaining path —
the specification's "recurse the remaining path into every option
independently, collect the subset that succeed". -/
def collectSchemas : ZSList → List PathSeg → ZSList
  | .nil, _ => .nil
  | .cons s tl, path =>
    match getSchemaAtPath s path with
    | some r => .cons r (collectSchemas tl path)
    | none => collectSchemas tl path

/-! `getTypeSet`: the reported type set of a schema (a list with set
membership semantics, as the source's `Set<string>`), after stripping
wrappers; unions collect their options' sets. -/

mutual
def getTypeSet : ZSchema → List String
  | .optional t => getTypeSet t
  | .withDefault t => getTypeSet t
  | .nullable t => getTypeSet t
  | .any => ["any"]
  | .unknown => ["any"]
  | .string => ["string"]
  | .number => ["number"]
  | .boolean => ["boolean"]
  | .null => ["null"]
  | .array _ => ["array"]
  | .tuple _ => ["array"]
  | .obj _ _ => ["object"]
  | .enum _ => ["string"]
  | .literal (.s _) => ["string"]
  | .literal (.n _) => ["number"]
  | .literal (.b _) => ["boolean"]
  | .union opts => typeSetOpts opts
  | .xor opts => typeSetOpts opts
  | .never => ["unknown"]
def typeSetOpts : ZSList → List String
  | .nil => []
  | .cons s tl => getTypeSet s ++ typeSetOpts tl
end

/-- Model of `isOptionalField`. -/
def isOptionalField : ZSchema → Bool
  | .optional _ => true
  | .withDefault _ => true
  | _ => false

def anyZS (f : ZSchema → Bool) : ZSList → Bool
  | .nil => false
  | .cons s tl => f s || anyZS f tl

def allZF (f : String → ZSchema → Bool) : ZFieldsS → Bool
  | .nil => true
  | .cons k s tl => f k s && allZF f tl

/-- Model of `isSchemaCompatible`, with fuel keeping the recursion
structural; every recursive call strictly decreases the combined node
size, so the fuel supplied by `isSchemaCompatible` is never exhausted. -/
def compatFuel : Nat → ZSchema → ZSchema → Bool
  | 0, _, _ => false
  | fuel + 1, expected, actual =>
    let eu := unwrapSchema expected
    let au := unwrapSchema actual
    if eu = .any ∨ au = .any then true
    else
      match eu with
      | .union opts => anyZS (fun o => compatFuel fuel o au) opts
      | .xor opts => anyZS (fun o => compatFuel fuel o au) opts
      | _ =>
        match au with
        | .union opts => anyZS (fun o => compatFuel fuel eu o) opts
        | .xor opts => anyZS (fun o => compatFuel fuel eu o) opts
        | _ =>
          match eu, au with
          | .array ee, .array ae => compatFuel fuel ee ae
          | .obj eshape _, .obj ashape _ =>
            allZF
              (fun k efs =>
                isOptionalField efs ||
                  (match zfLookupS ashape k with
                   | none => false
                   | some afs => compatFuel fuel efs afs))
              eshape
            && allZF
              (fun k afs =>
                match zfLookupS eshape k with
                | none => true
                | some efs => compatFuel fuel efs afs)
              ashape
          | _, _ =>
            let expectedTypes := getTypeSet expected
            let actualTypes := getTypeSet actual
            expectedTypes.contains "any" || actualTypes.contains "unknown"
              || actualTypes.any (fun t => expectedTypes.contains t)

/-! `zSize`: executable size of a schema node, used only to provision the
fuel of `isSchemaCompatible`. -/

mutual
def zSize : ZSchema → Nat
  | .array e => 1 + zSize e
  | .tuple items => 1 + zSizeL items
  | .obj shape catchall => 1 + zSizeF shape + zSizeC catchall
  | .union opts => 1 + zSizeL opts
  | .xor opts => 1 + zSizeL opts
  | .optional t => 1 + zSize t
  | .withDefault t => 1 + zSize t
  | .nullable t => 1 + zSize t
  | _ => 1
def zSizeL : ZSList → Nat
  | .nil => 0
  | .cons s tl => 1 + zSize s + zSizeL tl
def zSizeF : ZFieldsS → Nat
  | .nil => 0
  | .cons _ s tl => 1 + zSize s + zSizeF tl
def zSizeC : ZCatch → Nat
  | .none => 0
  | .some s => 1 + zSize s
end

def isSchemaCompatible (expected actual : ZSchema) : Bool :=
  compatFuel (zSize expected + zSize actual + 1) expected actual

/-- Output schema of the specification's union-resolution scenario:
`platformInfo` is `anyOf` of an object with an optional string
`contractAddress` and `null`. -/
def platSchema : ZSchema :=
  .obj
    (.cons "platformInfo"
      (.union (.cons (.obj (.cons "contractAddress" (.optional .string) .nil) .none)
        (.cons .null .nil)))
      .nil)
    .none

/-! ## The executor

Model of `executePlan` and its helpers (`resolveArguments`, `resolveValue`,
`getNestedValue`, `extractDependencyStepIds`).  Resolved arguments and
handler outputs are arbitrary JavaScript values: JSON data plus
`undefined`.  References never survive resolution, so the resolved-value
type needs no reference constructors. -/

mutual
inductive EVal where
  | str (s : String)
  | num (n : Int)
  | bool (b : Bool)
  | null
  | undef
  | arr (l : EList)
  | obj (fields : EFields)
  deriving DecidableEq, Repr
inductive EList where
  | nil
  | cons (v : EVal) (tl : EList)
  deriving DecidableEq, Repr
inductive EFields where
  | nil
  | cons (k : String) (v : EVal) (tl : EFields)
  deriving DecidableEq, Repr
end

def eLookup : EFields → String → Option EVal
  | .nil, _ => none
  | .cons k v tl, key => if k = key then some v else eLookup tl key

def eListGet : EList → Int → Option EVal
  | .nil, _ => none
  | .cons v tl, n => if n = 0 then some v else if n < 0 then none else eListGet tl (n - 1)

def eListLen : EList → Nat
  | .nil => 0
  | .cons _ tl => eListLen tl + 1

/-! JavaScript `String(x)` conversion.  Array elements stringify
recursively with `null`/`undefined` becoming empty text
(`Array.prototype.join`); objects become `[object Object]`. -/

mutual
def eToStrL : EVal → List Char
  | .str s => s.data
  | .num n => intDecChars n
  | .bool b => if b then "true".data else "false".data
  | .null => "null".data
  | .undef => "undefined".data
  | .arr l => eJoinL l
  | .obj _ => "[object Object]".data
def eJoinL : EList → List Char
  | .nil => []
  | .cons v tl =>
    (match v with
      | .null => []
      | .undef => []
      | w => eToStrL w)
      ++ (match tl with
        | .nil => []
        | t => ',' :: eJoinL t)
end

def eToStr (v : EVal) : String := ⟨eToStrL v⟩

def eToStrO : Option EVal → List Char
  | some v => eToStrL v
  | none => "undefined".data

/-- A purely-decimal string that is a canonical array/string index
property name (no leading zero except `"0"` itself). -/
def canonIndex (s : String) : Bool :=
  isNumericString s && (s = "0" || s.data.head? != some '0')

/-- Model of `getNestedValue`.  A `none` current value is JavaScript
`undefined`; method-valued properties (such as `"at"` on strings) are
outside the embedding and modeled as absent. -/
def eGetNested : Option EVal → Path → Option EVal
  | cur, [] => cur
  | none, _ :: _ => none
  | some .null, _ :: _ => none
  | some .undef, _ :: _ => none
  | some (.arr l), .idx n :: rest => eGetNested (eListGet l n) rest
  | some (.arr l), .str s :: rest =>
    if isNumericString s then eGetNested (eListGet l (Int.ofNat (digitsVal s.data))) rest
    else if s = "length" then eGetNested (some (.num (Int.ofNat (eListLen l)))) rest
    else eGetNested none rest
  | some _, .idx _ :: _ => none
  | some (.str t), .str s :: rest =>
    if s = "length" then eGetNested (some (.num (Int.ofNat t.length))) rest
    else if canonIndex s then
      eGetNested
        (match t.data.get? (digitsVal s.data) with
          | some c => some (.str ⟨[c]⟩)
          | none => none) rest
    else eGetNested none rest
  | some (.obj f), .str s :: rest => eGetNested (eLookup f s) rest
  | some _, .str _ :: rest => eGetNested none rest

/-- `GetSubstitution` for a string-pattern `String.prototype.replace`:
`$$`, `$&` (the match), the backquote form (preceding text) and the quote
form (following text); any other `$` is literal.  A string pattern has no
capture groups. -/
def dollarExpand (matched before after : List Char) : List Char → List Char
  | [] => []
  | [c] => if c = '$' then ['$'] else [c]
  | c :: d :: rest =>
    if c = '$' then
      if d = '$' then '$' :: dollarExpand matched before after rest
      else if d = '&' then matched ++ dollarExpand matched before after rest
      else if d = '\x60' then before ++ dollarExpand matched before after rest
      else if d = '\x27' then after ++ dollarExpand matched before after rest
      else '$' :: dollarExpand matched before after (d :: rest)
    else c :: dollarExpand matched before after (d :: rest)

def replFirstAux (pat repl : List Char) : List Char → List Char → Option (List Char)
  | before, [] =>
    if pat.isPrefixOf [] then some (before ++ dollarExpand pat before [] repl) else none
  | before, c :: cs =>
    if pat.isPrefixOf (c :: cs) then
      some (before ++ dollarExpand pat before ((c :: cs).drop pat.length) repl
        ++ (c :: cs).drop pat.length)
    else replFirstAux pat repl (before ++ [c]) cs

/-- JavaScript `s.replace(pat, repl)` with a string pattern: first
occurrence only, `$`-expansion in the replacement. -/
def jsReplace (s pat repl : List Char) : List Char :=
  match replFirstAux pat repl [] s with
  | some r => r
  | none => s

/-- JavaScript property access on a plan value (the reference constructors
are records bearing their `$`-keys). -/
def depsVList : List DepRef → VList
  | [] => .nil
  | r :: tl => .cons (Value.dep r) (depsVList tl)

def vGetProp : Value → String → Option Value
  | .obj f, k => vLookup f k
  | .dep r, k =>
    if k = "$fromStep" then some (.str r.fromStep)
    else if k = "$outputKey" then some (.str r.outputKey) else none
  | .tpl t, k =>
    if k = "$fromTemplateString" then some (.str t.fromTemplateString)
    else if k = "$values" then some (.arr (depsVList t.values)) else none
  | _, _ => none

def depToE (r : DepRef) : EVal :=
  .obj (.cons "$fromStep" (.str r.fromStep) (.cons "$outputKey" (.str r.outputKey) .nil))

def depsToE : List DepRef → EList
  | [] => .nil
  | r :: tl => .cons (depToE r) (depsToE tl)

/-! The plan value as the plain JavaScript value it is (used where the
source surfaces unresolved arguments in a result). -/
mutual
def vToE : Value → EVal
  | .str s => .str s
  | .num n => .num n
  | .bool b => .bool b
  | .null => .null
  | .arr l => .arr (vToEL l)
  | .obj f => .obj (vToEF f)
  | .dep r => depToE r
  | .tpl t =>
    .obj (.cons "$fromTemplateString" (.str t.fromTemplateString)
      (.cons "$values" (.arr (depsToE t.values)) .nil))
def vToEL : VList → EList
  | .nil => .nil
  | .cons v tl => .cons (vToE v) (vToEL tl)
def vToEF : VFields → EFields
  | .nil => .nil
  | .cons k v tl => .cons k (vToE v) (vToEF tl)
end

/-! Model of `traverseReferences` / `extractDependencyStepIds`.  The pushed
values are the raw `$fromStep` properties (a `none` is a missing property,
JavaScript `undefined`).  The `Set` deduplication is not modeled: the
executor consumes the list only through `every`, which deduplication
cannot affect. -/

def tplDepsOf : VList → List (Option Value)
  | .nil => []
  | .cons e tl => vGetProp e "$fromStep" :: tplDepsOf tl

mutual
def collectDeps : Value → List (Option Value)
  | .dep r => [some (.str r.fromStep)]
  | .tpl t => t.values.map fun r => some (Value.str r.fromStep)
  | .arr l => collectDepsL l
  | .obj f =>
    if vHasKey f "$fromStep" && vHasKey f "$outputKey" then [vLookup f "$fromStep"]
    else
      match vLookup f "$fromTemplateString", vLookup f "$values" with
      | some _, some (.arr vl) => tplDepsOf vl
      | _, _ => collectDepsF f
  | _ => []
def collectDepsL : VList → List (Option Value)
  | .nil => []
  | .cons v tl => collectDeps v ++ collectDepsL tl
def collectDepsF : VFields → List (Option Value)
  | .nil => []
  | .cons _ v tl => collectDeps v ++ collectDepsF tl
end

/-- `extractDependencyStepIds(args)`: the traversal starts at the argument
record itself, so a record that is itself reference-shaped contributes
only its own `$fromStep` and its interior is never visited. -/
def extractDeps (args : VFields) : List (Option Value) := collectDeps (.obj args)

/-- TypeErrors raised by JavaScript string operations on non-string data;
their interpreter text is not load-bearing for any claim and is modeled by
fixed strings. -/
def pathTypeErr : String := "TypeError: path.replace is not a function"

def replTypeErr : String := "TypeError: result.replace is not a function"

/-- The text substituted for the placeholder of one template value:
`String(getNestedValue(outputsByStepId.get(ref.$fromStep), parsePath(ref.$outputKey)))`. -/
def resolvedStr (outputs : String → Option EVal) (r : DepRef) : List Char :=
  eToStrO (eGetNested (outputs r.fromStep) (parsePath r.outputKey))

/-- The template-resolution loop over a parsed template reference. -/
def tplLoopRes (outputs : String → Option EVal) : List Char → Nat → List DepRef → List Char
  | acc, _, [] => acc
  | acc, i, r :: rest =>
    tplLoopRes outputs (jsReplace acc (markerChars i) (resolvedStr outputs r)) (i + 1) rest

/-- The same loop over a template-shaped plain record, whose `$values`
entries are arbitrary values. -/
def tplLoopObj (outputs : String → Option EVal) :
    List Char → Nat → VList → Except String (List Char)
  | acc, _, .nil => .ok acc
  | acc, i, .cons e rest =>
    match vGetProp e "$outputKey" with
    | some (.str k) =>
      tplLoopObj outputs
        (jsReplace acc (markerChars i)
          (eToStrO (eGetNested
            (match vGetProp e "$fromStep" with
              | some (.str s) => outputs s
              | _ => none)
            (parsePath k))))
        (i + 1) rest
    | _ => .error pathTypeErr

/-! Model of the executor's `resolveValue`.  The branch order follows the
source: arrays, dependency-reference shape, template-reference shape,
plain objects, primitives.  A step output stored as `undefined` is
indistinguishable from a missing map entry (`Map.get` answers `undefined`
for both), so it too takes the missing-output throw. -/
mutual
def resolveValue (outputs : String → Option EVal) : Value → Except String EVal
  | .arr l =>
    match resolveL outputs l with
    | .ok el => .ok (.arr el)
    | .error e => .error e
  | .dep r =>
    match outputs r.fromStep with
    | none => .error ("Step " ++ r.fromStep ++ " output not found")
    | some out =>
      if out = .undef then .error ("Step " ++ r.fromStep ++ " output not found")
      else .ok ((eGetNested (some out) (parsePath r.outputKey)).getD .undef)
  | .tpl t => .ok (.str ⟨tplLoopRes outputs t.fromTemplateString.data 0 t.values⟩)
  | .obj f =>
    if vHasKey f "$fromStep" && vHasKey f "$outputKey" then
      match vLookup f "$fromStep" with
      | some (.str s) =>
        match outputs s with
        | none => .error ("Step " ++ s ++ " output not found")
        | some out =>
          if out = .undef then .error ("Step " ++ s ++ " output not found")
          else
            match vLookup f "$outputKey" with
            | some (.str k) => .ok ((eGetNested (some out) (parsePath k)).getD .undef)
            | _ => .error pathTypeErr
      | some v => .error ("Step " ++ eToStr (vToE v) ++ " output not found")
      | none => .error "Step undefined output not found"
    else
      match vLookup f "$fromTemplateString", vLookup f "$values" with
      | some fts, some (.arr vl) =>
        match fts with
        | .str s =>
          match tplLoopObj outputs s.data 0 vl with
          | .ok cs => .ok (.str ⟨cs⟩)
          | .error e => .error e
        | other =>
          match vl with
          | .nil => .ok (vToE other)
          | _ => .error replTypeErr
      | _, _ =>
        match resolveF outputs f with
        | .ok ef => .ok (.obj ef)
        | .error e => .error e
  | .str s => .ok (.str s)
  | .num n => .ok (.num n)
  | .bool b => .ok (.bool b)
  | .null => .ok .null
def resolveL (outputs : String → Option EVal) : VList → Except String EList
  | .nil => .ok .nil
  | .cons v tl =>
    match resolveValue outputs v with
    | .ok ev =>
      match resolveL outputs tl with
      | .ok etl => .ok (.cons ev etl)
      | .error e => .error e
    | .error e => .error e
def resolveF (outputs : String → Option EVal) : VFields → Except String EFields
  | .nil => .ok .nil
  | .cons k v tl =>
    match resolveValue outputs v with
    | .ok ev =>
      match resolveF outputs tl with
      | .ok etl => .ok (.cons k ev etl)
      | .error e => .error e
    | .error e => .error e
end

/-- Model of `resolveArguments`: field-wise resolution of the argument
record; the record itself is not shape-checked (unlike the dependency
traversal, which starts its checks at the record). -/
def resolveArguments (args : VFields) (outputs : String → Option EVal) :
    Except String EFields :=
  resolveF outputs args

/-! Well-shaped plan values: reference key patterns occur only on actual
reference objects, never as the keys of an ordinary record. -/

mutual
def wfV : Value → Bool
  | .obj f =>
    !(vHasKey f "$fromStep" && vHasKey f "$outputKey")
      && !(vHasKey f "$fromTemplateString" && vHasKey f "$values")
      && wfF f
  | .arr l => wfL l
  | _ => true
def wfL : VList → Bool
  | .nil => true
  | .cons v tl => wfV v && wfL tl
def wfF : VFields → Bool
  | .nil => true
  | .cons _ v tl => wfV v && wfF tl
end

def wfArgs (args : VFields) : Bool := wfV (.obj args)

/-! ## The execution loop -/

/-- A tool implementation.  The asynchronous handler is modeled as the
`Except` it settles to; schema texts are carried but unused by the
executor. -/
structure ToolM where
  name : String
  description : String
  inputSchema : String
  outputSchema : String
  handler : EFields → Except String EVal

/-- One entry of the returned results (`StepResult`). -/
structure StepRes where
  stepId : String
  toolName : String
  arguments : EFields
  output : EVal
  error : Option String
  deriving DecidableEq, Repr

/-- `new Map(tools.map(t => [t.name, t]))`: on duplicate names the last
entry wins. -/
def lookupToolLast (tools : List ToolM) (name : String) : Option ToolM :=
  tools.foldl (fun acc t => if t.name = name then some t else acc) none

/-- The executor's mutable state: `outputsByStepId`, `statusByStepId`, the
pushed `results`, plus (for the temporal claims) the number of the wave in
which each step was handed to `tryExecuteStep`. -/
structure ExecState where
  outputs : String → Option EVal
  status : String → Option PlanStepStatus
  wave : String → Option Nat
  results : List StepRes

def upd (f : String → Option α) (key : String) (v : α) : String → Option α :=
  fun k => if k = key then some v else f k

/-- Readiness of one extracted dependency entry:
`statusByStepId.get(depStepId) === Done` (a non-string entry matches no
key of the status map). -/
def depReady (st : String → Option PlanStepStatus) : Option Value → Bool
  | some (.str s) => st s == some .done
  | _ => false

/-- Model of `getReadySteps`. -/
def readySteps (steps : List PlanStep) (st : String → Option PlanStepStatus) :
    List PlanStep :=
  steps.filter fun stp =>
    st stp.stepId == some PlanStepStatus.pending
      && (extractDeps stp.arguments).all (depReady st)

/-- Model of `tryExecuteStep` for one ready step of a wave.  Arguments are
resolved against `pre`, the state at the start of the wave: in the source
every `resolveArguments` of a wave runs before any handler of the wave
settles, so resolution sees exactly the outputs of earlier waves.  The
transient `Executing` status is invisible outside the wave and not
recorded.  Results are appended in wave order; the completion order of the
wave's handlers only permutes entries that the final sort reorders
uniquely anyway. -/
def recordStep (tools : List ToolM) (pre : ExecState) (w : Nat)
    (s : ExecState) (step : PlanStep) : ExecState :=
  match lookupToolLast tools step.toolName with
  | none =>
    { s with
      status := upd s.status step.stepId .skipped
      wave := upd s.wave step.stepId w
      results := s.results ++
        [⟨step.stepId, step.toolName, .nil, .null,
          some ("Tool \x22" ++ step.toolName ++ "\x22 not found")⟩] }
  | some tool =>
    match resolveArguments step.arguments pre.outputs with
    | .error e =>
      { s with
        status := upd s.status step.stepId .skipped
        wave := upd s.wave step.stepId w
        results := s.results ++
          [⟨step.stepId, step.toolName, .nil, .null,
            some ("Failed to resolve arguments: " ++ e)⟩] }
    | .ok rargs =>
      match tool.handler rargs with
      | .ok out =>
        { s with
          outputs := upd s.outputs step.stepId out
          status := upd s.status step.stepId .done
          wave := upd s.wave step.stepId w
          results := s.results ++ [⟨step.stepId, step.toolName, rargs, out, none⟩] }
      | .error msg =>
        { s with
          status := upd s.status step.stepId .failed
          wave := upd s.wave step.stepId w
          results := s.results ++ [⟨step.stepId, step.toolName, rargs, .null, some msg⟩] }

/-- One wave: `Promise.all(readySteps.map(tryExecuteStep))`. -/
def execWave (tools : List ToolM) (pre : ExecState) (w : Nat)
    (ready : List PlanStep) : ExecState :=
  ready.foldl (recordStep tools pre w) pre

/-- The `while (readySteps.length > 0)` loop.  Every nonempty wave moves at
least one id out of `Pending` for good, so `steps.length + 1` units of
fuel are more waves than the loop can ever run. -/
def runWaves (tools : List ToolM) (steps : List PlanStep) :
    Nat → Nat → ExecState → ExecState
  | 0, _, s => s
  | fuel + 1, w, s =>
    match readySteps steps s.status with
    | [] => s
    | ready => runWaves tools steps fuel (w + 1) (execWave tools s w ready)

/-- One element of the post-loop sweep: a still-pending step is marked
skipped, with its original unresolved arguments surfaced in the result. -/
def sweepStep (acc : ExecState) (stp : PlanStep) : ExecState :=
  if acc.status stp.stepId == some PlanStepStatus.pending then
    { acc with
      status := upd acc.status stp.stepId .skipped
      results := acc.results ++
        [⟨stp.stepId, stp.toolName, vToEF stp.arguments, .null,
          some "Skipped: dependencies not satisfied"⟩] }
  else acc

/-- The post-loop sweep over every step. -/
def sweep (steps : List PlanStep) (s : ExecState) : ExecState :=
  steps.foldl sweepStep s

/-- `new Map(steps.map((s, i) => [s.stepId, i]))` (last index wins) with
the sort comparator's `?? 0` default. -/
def stepOrderGo : List PlanStep → Nat → String → Option Nat
  | [], _, _ => none
  | stp :: tl, i, id =>
    match stepOrderGo tl (i + 1) id with
    | some j => some j
    | none => if stp.stepId = id then some i else none

def stepOrderOf (steps : List PlanStep) (id : String) : Nat :=
  (stepOrderGo steps 0 id).getD 0

/-- The final `results.sort((a, b) => order(a) - order(b))`.  JavaScript's
sort is stable, as is insertion sort; moreover every run of this executor
gives results with pairwise-distinct step ids whenever the input ids are
distinct, in which case all correct sorts agree. -/
def sortResults (steps : List PlanStep) (rs : List StepRes) : List StepRes :=
  rs.insertionSort fun a b => stepOrderOf steps a.stepId ≤ stepOrderOf steps b.stepId

def initState (steps : List PlanStep) : ExecState :=
  { outputs := fun _ => none
    status := fun id => if steps.any (fun s => s.stepId = id) then some .pending else none
    wave := fun _ => none
    results := [] }

/-- The executor's final state, before result ordering. -/
def execStateOf (steps : List PlanStep) (tools : List ToolM) : ExecState :=
  sweep steps (runWaves tools steps (steps.length + 1) 0 (initState steps))

/-- Model of `executePlan`. -/
def executePlanM (steps : List PlanStep) (tools : List ToolM) : List StepRes :=
  sortResults steps (execStateOf steps tools).results

/-! ## Template resolution (C9) -/

/-- A rewritten template string in compiler shape: chunk, marker `{k}`,
chunk, marker `{k+1}`, … -/
def weave : Nat → List Char → List (List Char) → List Char
  | _, c0, [] => c0
  | k, c0, c :: rest => c0 ++ markerChars k ++ weave (k + 1) c rest

/-- Outputs map of the template-resolution scenarios: one step `"s"` whose
output is the string `"x"`. -/
def tplO : String → Option EVal := fun s => if s = "s" then some (.str "x") else none

/-- A template whose rewritten string repeats the marker `{0}` while its
value list has two entries (as the compiler produces from a template whose
second match was left verbatim). -/
def tplCex : TplRef := ⟨"{0}{0}", [⟨"s", ""⟩, ⟨"s", ""⟩]⟩

/-! ## Executor invariants and the execution claims -/

def settledB (s : ExecState) (id : String) : Bool :=
  match s.status id with
  | some .pending => false
  | none => false
  | some _ => true

/-- Wave-loop invariant of the executor state (`w` is the next wave
number). -/
structure Inv (steps : List PlanStep) (tools : List ToolM) (s : ExecState) (w : Nat) :
    Prop where
  dom : ∀ id, (s.status id).isSome ↔ id ∈ steps.map PlanStep.stepId
  wave_lt : ∀ id wd, s.wave id = some wd → wd < w
  pend_wave : ∀ id, s.status id = some .pending → s.wave id = none
  no_exec : ∀ id, s.status id ≠ some .executing ∧ s.status id ≠ some .timeout
  disp : ∀ stp ∈ steps, ∀ wd, s.wave stp.stepId = some wd →
    ∀ d ∈ extractDeps stp.arguments, ∃ ds, d = some (Value.str ds)
      ∧ s.status ds = some .done ∧ ∃ wdd, s.wave ds = some wdd ∧ wdd < wd
  done_res : ∀ stp ∈ steps, s.status stp.stepId = some .done →
    (∃ wd, s.wave stp.stepId = some wd)
      ∧ ∃ tool rargs out, lookupToolLast tools stp.toolName = some tool
        ∧ tool.handler rargs = .ok out ∧ s.outputs stp.stepId = some out
        ∧ (⟨stp.stepId, stp.toolName, rargs, out, none⟩ : StepRes) ∈ s.results
  failed_res : ∀ stp ∈ steps, s.status stp.stepId = some .failed →
    (∃ wd, s.wave stp.stepId = some wd)
      ∧ ∃ tool rargs msg, lookupToolLast tools stp.toolName = some tool
        ∧ tool.handler rargs = .error msg
        ∧ (⟨stp.stepId, stp.toolName, rargs, .null, some msg⟩ : StepRes) ∈ s.results
  skip_wave : ∀ id, s.status id = some .skipped → ∃ wd, s.wave id = some wd
  resperm : (s.results.map StepRes.stepId).Perm
    ((steps.filter fun stp => settledB s stp.stepId).map PlanStep.stepId)

/-- Facts about the executor's final state (after the wave loop and the
pending sweep). -/
structure FinalS (steps : List PlanStep) (tools : List ToolM) (f : ExecState) : Prop where
  dom : ∀ id, (f.status id).isSome ↔ id ∈ steps.map PlanStep.stepId
  settled : ∀ stp ∈ steps, ∃ v, f.status stp.stepId = some v
    ∧ v ≠ .pending ∧ v ≠ .executing ∧ v ≠ .timeout
  disp : ∀ stp ∈ steps, ∀ wd, f.wave stp.stepId = some wd →
    ∀ d ∈ extractDeps stp.arguments, ∃ ds, d = some (Value.str ds)
      ∧ f.status ds = some .done ∧ ∃ wdd, f.wave ds = some wdd ∧ wdd < wd
  done_res : ∀ stp ∈ steps, f.status stp.stepId = some .done →
    (∃ wd, f.wave stp.stepId = some wd)
      ∧ ∃ tool rargs out, lookupToolLast tools stp.toolName = some tool
        ∧ tool.handler rargs = .ok out ∧ f.outputs stp.stepId = some out
        ∧ (⟨stp.stepId, stp.toolName, rargs, out, none⟩ : StepRes) ∈ f.results
  failed_res : ∀ stp ∈ steps, f.status stp.stepId = some .failed →
    (∃ wd, f.wave stp.stepId = some wd)
      ∧ ∃ tool rargs msg, lookupToolLast tools stp.toolName = some tool
        ∧ tool.handler rargs = .error msg
        ∧ (⟨stp.stepId, stp.toolName, rargs, .null, some msg⟩ : StepRes) ∈ f.results
  skip_nowave : ∀ stp ∈ steps, f.status stp.stepId = some .skipped →
    f.wave stp.stepId = none →
    (⟨stp.stepId, stp.toolName, vToEF stp.arguments, .null,
      some "Skipped: dependencies not satisfied"⟩ : StepRes) ∈ f.results
  resperm : (f.results.map StepRes.stepId).Perm (steps.map PlanStep.stepId)

/-- Direct dependency between plan steps, as the executor extracts it. -/
def dependsOn (steps : List PlanStep) (t u : PlanStep) : Prop :=
  t ∈ steps ∧ u ∈ steps ∧ some (Value.str u.stepId) ∈ extractDeps t.arguments

/-- One extracted dependency entry is a string id whose output is present
and not `undefined`. -/
def DepOk (O : String → Option EVal) (d : Option Value) : Prop :=
  ∃ s, d = some (Value.str s) ∧ ∃ out, O s = some out ∧ out ≠ EVal.undef


def exTools : List ToolM :=
  [⟨"tA", "", "", "", fun _ => .error "boom"⟩,
   ⟨"tB", "", "", "", fun _ => .ok (.num 2)⟩,
   ⟨"tC", "", "", "", fun _ => .ok (.num 1)⟩]

def exArgsB : VFields :=
  .cons "$fromStep" (.str "a") (.cons "$outputKey" (.str "") .nil)

def exStepA : PlanStep := ⟨"a", .pending, "tA", .nil, none⟩

def exStepB : PlanStep := ⟨"b", .pending, "tB", exArgsB, none⟩

def exPlan : List PlanStep := [exStepA, exStepB]

-- C1 witness

def exTools2 : List ToolM :=
  [⟨"tC", "", "", "", fun _ => .ok (.num 1)⟩,
   ⟨"tB", "", "", "", fun _ => .ok (.num 2)⟩]

def exStepC : PlanStep := ⟨"a", .pending, "tC", .nil, none⟩

def exPlan2 : List PlanStep := [exStepC, exStepB]

def cxArgs : VFields :=
  .cons "$fromStep" (.str "s1")
    (.cons "$outputKey" (.str "")
      (.cons "body" (.dep ⟨"ghost", ""⟩) .nil))

def cxPlanC10 : List PlanStep :=
  [⟨"s1", .pending, "tC", .nil, none⟩, ⟨"s2", .pending, "tB", cxArgs, none⟩]

def wO : String → Option EVal := fun s => if s = "s" then some (.num 5) else none

def wArgs : VFields := .cons "x" (.dep ⟨"s", ""⟩) .nil

/-! ## Theorems -/

mutual
theorem resolve_ok_val (O : String → Option EVal) :
    ∀ v : Value, wfV v = true → (∀ d ∈ collectDeps v, DepOk O d) →
      ∃ e, resolveValue O v = .ok e
  | .str s => fun _ _ => ⟨_, rfl⟩
  | .num n => fun _ _ => ⟨_, rfl⟩
  | .bool b => fun _ _ => ⟨_, rfl⟩
  | .null => fun _ _ => ⟨_, rfl⟩
  | .tpl t => fun _ _ => ⟨_, rfl⟩
  | .arr l => fun hwf hdeps => by
    rcases resolve_ok_list O l (by simpa [wfV] using hwf)
      (by simpa [collectDeps] using hdeps) with ⟨el, hel⟩
    exact ⟨.arr el, by simp [resolveValue, hel]⟩
  | .dep r => fun _ hdeps => by
    rcases hdeps (some (Value.str r.fromStep)) (by simp [collectDeps]) with
      ⟨s, hde, out, hO, hne⟩
    have hs : s = r.fromStep := (Value.str.inj (Option.some.inj hde)).symm
    subst hs
    have hred : resolveValue O (.dep r)
        = .ok ((eGetNested (some out) (parsePath r.outputKey)).getD .undef) := by
      rw [resolveValue, hO]
      simp [hne]
    exact ⟨_, hred⟩
  | .obj f => fun hwf hdeps => by
    simp only [wfV, Bool.and_eq_true, Bool.not_eq_true'] at hwf
    have hsh : ¬(vHasKey f "$fromStep" && vHasKey f "$outputKey") = true := by
      simp [hwf.1.1]
    have hsh2 : ∀ vl, ¬(vLookup f "$fromTemplateString" = none)
        → ¬(vLookup f "$values" = some (Value.arr vl)) := by
      intro vl h1 h2
      have hb := hwf.1.2
      rw [show vHasKey f "$fromTemplateString" = true from by
          simp [vHasKey, Option.ne_none_iff_isSome.mp h1]] at hb
      rw [show vHasKey f "$values" = true from by simp [vHasKey, h2]] at hb
      simp at hb
    have hdeps2 : ∀ d ∈ collectDepsF f, DepOk O d := by
      intro d hd
      apply hdeps
      rw [collectDeps]
      rw [if_neg hsh]
      cases h1 : vLookup f "$fromTemplateString" with
      | none => cases h2 : vLookup f "$values" with
        | none => exact hd
        | some v2 => cases v2 <;> exact hd
      | some v1 =>
        cases h2 : vLookup f "$values" with
        | none => exact hd
        | some v2 =>
          cases v2 with
          | arr vl => exact absurd h2 (hsh2 vl (by simp [h1]))
          | _ => exact hd
    rcases resolve_ok_fields O f hwf.2 hdeps2 with ⟨ef, hef⟩
    refine ⟨.obj ef, ?_⟩
    rw [resolveValue]
    rw [if_neg hsh]
    cases h1 : vLookup f "$fromTemplateString" with
    | none => cases h2 : vLookup f "$values" with
      | none => simp [hef]
      | some v2 => cases v2 <;> simp [hef]
    | some v1 =>
      cases h2 : vLookup f "$values" with
      | none => simp [hef]
      | some v2 =>
        cases v2 with
        | arr vl => exact absurd h2 (hsh2 vl (by simp [h1]))
        | _ => simp [hef]

theorem resolve_ok_list (O : String → Option EVal) :
    ∀ l : VList, wfL l = true → (∀ d ∈ collectDepsL l, DepOk O d) →
      ∃ el, resolveL O l = .ok el
  | .nil => fun _ _ => ⟨.nil, rfl⟩
  | .cons v tl => fun hwf hdeps => by
    simp only [wfL, Bool.and_eq_true] at hwf
    rcases resolve_ok_val O v hwf.1
      (fun d hd => hdeps d (by rw [collectDepsL]; exact List.mem_append_left _ hd))
      with ⟨e, he⟩
    rcases resolve_ok_list O tl hwf.2
      (fun d hd => hdeps d (by rw [collectDepsL]; exact List.mem_append_right _ hd))
      with ⟨el, hel⟩
    exact ⟨.cons e el, by rw [resolveL, he, hel]⟩

theorem resolve_ok_fields (O : String → Option EVal) :
    ∀ f : VFields, wfF f = true → (∀ d ∈ collectDepsF f, DepOk O d) →
      ∃ ef, resolveF O f = .ok ef
  | .nil => fun _ _ => ⟨.nil, rfl⟩
  | .cons k v tl => fun hwf hdeps => by
    simp only [wfF, Bool.and_eq_true] at hwf
    rcases resolve_ok_val O v hwf.1
      (fun d hd => hdeps d (by rw [collectDepsF]; exact List.mem_append_left _ hd))
      with ⟨e, he⟩
    rcases resolve_ok_fields O tl hwf.2
      (fun d hd => hdeps d (by rw [collectDepsF]; exact List.mem_append_right _ hd))
      with ⟨ef, hef⟩
    exact ⟨.cons k e ef, by rw [resolveF, he, hef]⟩
end

theorem digCh_isDigit : ∀ k, k < 10 → (digCh k).isDigit = true := by decide

theorem digVal_digCh : ∀ k, k < 10 → digVal (digCh k) = k := by decide

theorem natDigsGo_digits {fuel n : Nat} : ∀ c ∈ natDigsGo fuel n, c.isDigit = true := by
  induction fuel generalizing n with
  | zero => simp [natDigsGo]
  | succ fuel ih =>
    intro c hc
    simp only [natDigsGo] at hc
    split at hc
    · next h =>
      simp only [List.mem_singleton] at hc
      exact hc ▸ digCh_isDigit n h
    · next h =>
      rcases List.mem_append.mp hc with h1 | h1
      · exact ih c h1
      · simp only [List.mem_singleton] at h1
        exact h1 ▸ digCh_isDigit _ (Nat.mod_lt _ (by omega))

theorem natDigs_digits {n : Nat} : ∀ c ∈ natDigs n, c.isDigit = true :=
  natDigsGo_digits

theorem digitsVal_append_one (cs : List Char) (c : Char) :
    digitsVal (cs ++ [c]) = 10 * digitsVal cs + digVal c := by
  simp [digitsVal]

theorem natDigsGo_ne_nil {fuel n : Nat} (h : n < fuel) : natDigsGo fuel n ≠ [] := by
  cases fuel with
  | zero => omega
  | succ fuel =>
    simp only [natDigsGo]
    split
    · simp
    · simp

theorem digitsVal_natDigsGo {fuel n : Nat} (h : n < fuel) :
    digitsVal (natDigsGo fuel n) = n := by
  induction fuel generalizing n with
  | zero => omega
  | succ fuel ih =>
    simp only [natDigsGo]
    split
    · next hlt => simp [digitsVal, digVal_digCh n hlt]
    · next hge =>
      have hdiv : n / 10 < fuel := by omega
      rw [digitsVal_append_one, ih hdiv, digVal_digCh _ (Nat.mod_lt _ (by omega))]
      omega

theorem digitsVal_natDigs (n : Nat) : digitsVal (natDigs n) = n :=
  digitsVal_natDigsGo (Nat.lt_succ_self n)

theorem natDigs_injective {m n : Nat} (h : natDigs m = natDigs n) : m = n := by
  have := digitsVal_natDigs m
  rw [h, digitsVal_natDigs] at this
  omega

theorem intDecChars_nonneg {n : Int} (h : 0 ≤ n) : intDecChars n = natDigs n.toNat := by
  rw [intDecChars, if_neg (by omega)]

theorem intDecChars_digits {n : Int} (h : 0 ≤ n) :
    ∀ c ∈ intDecChars n, c.isDigit = true := by
  rw [intDecChars_nonneg h]
  exact natDigs_digits

theorem natDigs_ne_nil (n : Nat) : natDigs n ≠ [] :=
  natDigsGo_ne_nil (Nat.lt_succ_self n)

theorem intDecChars_ne_nil {n : Int} (h : 0 ≤ n) : intDecChars n ≠ [] := by
  rw [intDecChars_nonneg h]
  exact natDigs_ne_nil _

theorem isDigit_ne {c x : Char} (h : c.isDigit = true) (hx : x.isDigit = false) : c ≠ x := by
  intro he
  rw [he, hx] at h
  cases h

theorem String.mk_data (s : String) : (⟨s.data⟩ : String) = s := rfl

theorem str_ne_iff {s : String} : s ≠ "" ↔ s.data ≠ [] := by
  constructor
  · intro h hd
    exact h (by cases s; simp_all)
  · intro h hd
    rw [hd] at h
    exact h rfl

theorem fmtStep_ne_empty {acc : String} {part : PathSeg} (hg : goodSeg part)
    (h : acc ≠ "" ∨ True) : fmtStep acc part ≠ "" := by
  cases part with
  | idx n =>
    simp only [fmtStep]
    rw [str_ne_iff]
    simp
  | str s =>
    simp only [fmtStep]
    split
    · exact hg.1
    · rw [str_ne_iff]
      simp only [String.data_append]
      rcases hg with ⟨h1, -⟩
      rw [str_ne_iff] at h1
      simp [h1]

theorem foldl_fmt_data (l : Path) :
    ∀ acc : String, acc ≠ "" → (l.foldl fmtStep acc).data = acc.data ++ l.flatMap chunkRest := by
  induction l with
  | nil => intro acc _; simp
  | cons part rest ih =>
    intro acc hacc
    cases part with
    | idx n =>
      rw [List.foldl_cons, ih _ (by simp only [fmtStep]; rw [str_ne_iff]; simp)]
      simp [fmtStep, chunkRest]
    | str s =>
      rw [List.foldl_cons]
      have hs : fmtStep acc (.str s) = acc ++ "." ++ s := by
        simp only [fmtStep]
        rw [if_neg hacc]
      by_cases hse : s = ""
      · subst hse
        rw [ih _ (by rw [hs, str_ne_iff]; rw [str_ne_iff] at hacc; simp [hacc])]
        simp [hs, chunkRest]
      · rw [ih _ (by rw [hs, str_ne_iff]; rw [str_ne_iff] at hacc; simp [hacc])]
        simp [hs, chunkRest]

theorem formatPath_data {part : PathSeg} {rest : Path} (hg : goodSeg part) :
    (formatPath (part :: rest)).data = chunkFirst part ++ rest.flatMap chunkRest := by
  rw [formatPath, List.foldl_cons,
    foldl_fmt_data rest _ (fmtStep_ne_empty hg (Or.inr trivial))]
  cases part with
  | idx n => simp [fmtStep, chunkFirst]
  | str s => simp [fmtStep, chunkFirst]

theorem formatPath_good_ne {part : PathSeg} {rest : Path} (hg : goodSeg part) :
    formatPath (part :: rest) ≠ "" := by
  rw [str_ne_iff, formatPath_data hg]
  cases part with
  | idx n => simp [chunkFirst]
  | str s =>
    rcases hg with ⟨h1, -⟩
    rw [str_ne_iff] at h1
    simp [chunkFirst, h1]

/-! Behaviour of the three global replaces on well-formed material. -/

theorem replIdx_nil : replIdx [] = [] := by simp [replIdx]

theorem replIdx_cons_ne {c : Char} (h : c ≠ '[') (b : List Char) :
    replIdx (c :: b) = c :: replIdx b := by
  rw [replIdx]
  simp [h]

theorem replIdx_append {a : List Char} (h : '[' ∉ a) (b : List Char) :
    replIdx (a ++ b) = a ++ replIdx b := by
  induction a with
  | nil => simp
  | cons c a ih =>
    have hc : c ≠ '[' := by
      intro he
      exact h (he ▸ List.mem_cons_self c a)
    rw [List.cons_append, replIdx_cons_ne hc, ih (fun hm => h (List.mem_cons_of_mem c hm))]
    simp

theorem takeWhile_all_app {p : α → Bool} {ds : List α} {y : α}
    (h : ∀ c ∈ ds, p c = true) (hy : p y = false) (b : List α) :
    (ds ++ y :: b).takeWhile p = ds ∧ (ds ++ y :: b).dropWhile p = y :: b := by
  induction ds with
  | nil => simp [List.takeWhile_cons, List.dropWhile_cons, hy]
  | cons d ds ih =>
    have hd : p d = true := h d (List.mem_cons_self d ds)
    have := ih (fun c hc => h c (List.mem_cons_of_mem d hc))
    simp [List.takeWhile_cons, List.dropWhile_cons, hd, this.1, this.2]

theorem replIdx_bracket {ds b : List Char} (hne : ds ≠ [])
    (hdig : ∀ c ∈ ds, c.isDigit = true) :
    replIdx ('[' :: (ds ++ ']' :: b)) = '.' :: idxMark ++ ds ++ replIdx b := by
  have hbr : (']' : Char).isDigit = false := by decide
  obtain ⟨ht, hd⟩ := takeWhile_all_app hdig hbr b
  rw [replIdx, if_pos rfl]
  split
  · rename_i after heq
    rw [hd] at heq
    injection heq with hb htl
    subst htl
    rw [ht, if_neg hne]
  · rename_i heq
    rw [hd] at heq
    exact absurd heq (by simp_all)

theorem replDQ_id {cs : List Char} (h : '[' ∉ cs) : replDQ cs = cs := by
  induction cs using replDQ.induct with
  | case1 => simp [replDQ]
  | case2 c => simp [replDQ]
  | case3 c d rest hcd h1 heq ih =>
    exact absurd (hcd.1 ▸ List.mem_cons_self c _) h
  | case4 c d rest hcd h1 heq ih =>
    exact absurd (hcd.1 ▸ List.mem_cons_self c _) h
  | case5 c d rest hcd h1 ih =>
    exact absurd (hcd.1 ▸ List.mem_cons_self c _) h
  | case6 c d rest hcd ih =>
    rw [replDQ]
    simp only [if_neg hcd]
    rw [ih (fun hm => h (List.mem_cons_of_mem c hm))]

theorem replSQ_id {cs : List Char} (h : '[' ∉ cs) : replSQ cs = cs := by
  induction cs using replSQ.induct with
  | case1 => simp [replSQ]
  | case2 c => simp [replSQ]
  | case3 c d rest hcd h1 heq ih =>
    exact absurd (hcd.1 ▸ List.mem_cons_self c _) h
  | case4 c d rest hcd h1 heq ih =>
    exact absurd (hcd.1 ▸ List.mem_cons_self c _) h
  | case5 c d rest hcd h1 ih =>
    exact absurd (hcd.1 ▸ List.mem_cons_self c _) h
  | case6 c d rest hcd ih =>
    rw [replSQ]
    simp only [if_neg hcd]
    rw [ih (fun hm => h (List.mem_cons_of_mem c hm))]

/-! Character-level shape of the normalized form of a well-formed path. -/

theorem segBody_no_dot {seg : PathSeg} (hg : goodSeg seg) : '.' ∉ segBody seg := by
  cases seg with
  | str s => exact hg.2.1
  | idx n =>
    intro hm
    rcases List.mem_append.mp hm with h1 | h1
    · revert h1
      decide
    · exact isDigit_ne (intDecChars_digits hg _ h1) (by decide) rfl

theorem segBody_no_br {seg : PathSeg} (hg : goodSeg seg) : '[' ∉ segBody seg := by
  cases seg with
  | str s => exact hg.2.2.1
  | idx n =>
    intro hm
    rcases List.mem_append.mp hm with h1 | h1
    · revert h1
      decide
    · exact isDigit_ne (intDecChars_digits hg _ h1) (by decide) rfl

theorem segBody_ne_nil {seg : PathSeg} (hg : goodSeg seg) : segBody seg ≠ [] := by
  cases seg with
  | str s =>
    have := hg.1
    rw [str_ne_iff] at this
    exact this
  | idx n => simp [segBody, idxMark]

theorem flatMap_dotted_no_br {l : Path} (h : ∀ seg ∈ l, goodSeg seg) :
    '[' ∉ l.flatMap (fun seg => '.' :: segBody seg) := by
  intro hm
  rcases List.mem_flatMap.mp hm with ⟨seg, hseg, hc⟩
  rcases List.mem_cons.mp hc with h1 | h1
  · cases h1
  · exact segBody_no_br (h seg hseg) h1

theorem replIdx_chunks {l : Path} (h : ∀ seg ∈ l, goodSeg seg) :
    replIdx (l.flatMap chunkRest) = l.flatMap (fun seg => '.' :: segBody seg) := by
  induction l with
  | nil => simp [replIdx_nil]
  | cons seg l ih =>
    have hg : goodSeg seg := h seg (List.mem_cons_self seg l)
    have hrest : ∀ s ∈ l, goodSeg s := fun s hs => h s (List.mem_cons_of_mem seg hs)
    cases seg with
    | str s =>
      have hbr : '[' ∉ ('.' :: s.data) := by
        intro hm
        rcases List.mem_cons.mp hm with h1 | h1
        · cases h1
        · exact hg.2.2.1 h1
      rw [List.flatMap_cons]
      show replIdx (('.' :: s.data) ++ _) = _
      rw [replIdx_append hbr, ih hrest]
      simp [segBody]
    | idx n =>
      have hsh : chunkRest (.idx n) ++ l.flatMap chunkRest
          = '[' :: (intDecChars n ++ ']' :: l.flatMap chunkRest) := by
        simp [chunkRest]
      rw [List.flatMap_cons, hsh,
        replIdx_bracket (intDecChars_ne_nil hg) (intDecChars_digits hg), ih hrest]
      simp [segBody]

theorem normalized_data {part : PathSeg} {rest : Path} (hg : goodSeg part)
    (hrest : ∀ seg ∈ rest, goodSeg seg) :
    (normalizeToSegments (formatPath (part :: rest))).data
      = leadChunk part ++ rest.flatMap (fun seg => '.' :: segBody seg) := by
  rw [normalizeToSegments, if_neg (formatPath_good_ne hg)]
  have hrepl : replIdx (formatPath (part :: rest)).data
      = leadChunk part ++ rest.flatMap (fun seg => '.' :: segBody seg) := by
    rw [formatPath_data hg]
    cases part with
    | str s =>
      simp only [chunkFirst]
      rw [replIdx_append hg.2.2.1, replIdx_chunks hrest]
      simp [leadChunk]
    | idx n =>
      have hsh : chunkFirst (.idx n) ++ rest.flatMap chunkRest
          = '[' :: (intDecChars n ++ ']' :: rest.flatMap chunkRest) := by
        simp [chunkFirst]
      rw [hsh, replIdx_bracket (intDecChars_ne_nil hg) (intDecChars_digits hg),
        replIdx_chunks hrest]
      simp [leadChunk]
  have hnb : '[' ∉ replIdx (formatPath (part :: rest)).data := by
    rw [hrepl]
    intro hm
    rcases List.mem_append.mp hm with h1 | h1
    · cases part with
      | str s => exact hg.2.2.1 h1
      | idx n =>
        rcases List.mem_cons.mp h1 with h2 | h2
        · cases h2
        · rcases List.mem_append.mp h2 with h3 | h3
          · revert h3
            decide
          · exact isDigit_ne (intDecChars_digits hg _ h3) (by decide) rfl
    · exact flatMap_dotted_no_br hrest h1
  rw [show ((⟨replSQ (replDQ (replIdx (formatPath (part :: rest)).data))⟩ : String)).data
      = replSQ (replDQ (replIdx (formatPath (part :: rest)).data)) from rfl]
  rw [replDQ_id hnb, replSQ_id hnb, hrepl]

/-! Splitting the normalized form back into segments. -/

theorem splitDotGo_dotfree {a : List Char} (h : '.' ∉ a) :
    ∀ acc, splitDotGo acc a = [acc.reverse ++ a] := by
  induction a with
  | nil => intro acc; simp [splitDotGo]
  | cons c a ih =>
    intro acc
    have hc : c ≠ '.' := fun he => h (he ▸ List.mem_cons_self c a)
    rw [splitDotGo, if_neg hc, ih (fun hm => h (List.mem_cons_of_mem c hm))]
    simp

theorem splitDotGo_app {a b : List Char} (h : '.' ∉ a) :
    ∀ acc, splitDotGo acc (a ++ '.' :: b) = (acc.reverse ++ a) :: splitDotGo [] b := by
  induction a with
  | nil =>
    intro acc
    rw [List.nil_append, splitDotGo, if_pos rfl]
    simp
  | cons c a ih =>
    intro acc
    have hc : c ≠ '.' := fun he => h (he ▸ List.mem_cons_self c a)
    rw [List.cons_append, splitDotGo, if_neg hc,
      ih (fun hm => h (List.mem_cons_of_mem c hm))]
    simp

theorem split_join_path (l : Path) (hl : ∀ seg ∈ l, goodSeg seg) :
    ∀ b0 : List Char, '.' ∉ b0 →
      splitDotGo [] (b0 ++ l.flatMap (fun seg => '.' :: segBody seg)) = b0 :: l.map segBody := by
  induction l with
  | nil =>
    intro b0 h0
    rw [List.flatMap_nil, List.append_nil, splitDotGo_dotfree h0]
    simp
  | cons seg l ih =>
    intro b0 h0
    have hg : goodSeg seg := hl seg (List.mem_cons_self seg l)
    have hrest : ∀ s ∈ l, goodSeg s := fun s hs => hl s (List.mem_cons_of_mem seg hs)
    have hsh : b0 ++ (seg :: l).flatMap (fun s => '.' :: segBody s)
        = b0 ++ '.' :: (segBody seg ++ l.flatMap (fun s => '.' :: segBody s)) := by
      simp
    rw [hsh, splitDotGo_app h0, ih hrest _ (segBody_no_dot hg)]
    simp

theorem segOf_segBody {seg : PathSeg} (hg : goodSeg seg) : segOf (segBody seg) = seg := by
  cases seg with
  | str s =>
    rw [segBody, segOf, if_neg (by simp [hg.2.2.2])]
  | idx n =>
    have hmk : isIdxMarker (segBody (.idx n)) = true := by
      rw [segBody, isIdxMarker]
      exact List.isPrefixOf_iff_prefix.mpr (List.prefix_append _ _)
    rw [segOf, if_pos hmk]
    rw [segBody, List.drop_left' (by rfl), intDecChars_nonneg hg, digitsVal_natDigs,
      Int.toNat_of_nonneg hg]

/-- Round-trip theorem: on a path whose segments are well-formed,
`parsePath` undoes `formatPath`. -/
theorem parsePath_formatPath (p : Path) (h : ∀ seg ∈ p, goodSeg seg) :
    parsePath (formatPath p) = p := by
  cases p with
  | nil => rfl
  | cons part rest =>
    have hg : goodSeg part := h part (List.mem_cons_self part rest)
    have hrest : ∀ seg ∈ rest, goodSeg seg := fun s hs => h s (List.mem_cons_of_mem part hs)
    have hdata := normalized_data hg hrest
    have hne : normalizeToSegments (formatPath (part :: rest)) ≠ "" := by
      rw [str_ne_iff, hdata]
      cases part with
      | str s =>
        have h1 := hg.1
        rw [str_ne_iff] at h1
        simp [leadChunk, h1]
      | idx n => simp [leadChunk]
    rw [parsePath]
    simp only [if_neg hne]
    rw [hdata]
    cases part with
    | str s =>
      rw [show leadChunk (.str s) = s.data from rfl,
        split_join_path rest hrest s.data hg.2.1]
      have hsne : s.data ≠ [] := by
        have := hg.1
        rwa [str_ne_iff] at this
      rw [List.filter_cons_of_pos (by simpa using hsne)]
      rw [List.filter_eq_self.mpr
        (fun b hb => by
          simp only [ne_eq, decide_eq_true_eq]
          rcases List.mem_map.mp hb with ⟨seg, hseg, rfl⟩
          exact segBody_ne_nil (hrest seg hseg))]
      rw [List.map_cons]
      rw [show segOf s.data = segOf (segBody (.str s)) from rfl, segOf_segBody hg]
      congr 1
      rw [List.map_map]
      have hmc : ∀ seg ∈ rest, (segOf ∘ segBody) seg = id seg :=
        fun seg hseg => segOf_segBody (hrest seg hseg)
      rw [List.map_congr_left hmc, List.map_id]
    | idx n =>
      rw [show leadChunk (.idx n) ++ rest.flatMap (fun seg => '.' :: segBody seg)
          = '.' :: ((idxMark ++ intDecChars n)
              ++ rest.flatMap (fun seg => '.' :: segBody seg)) from by
        simp [leadChunk]]
      rw [splitDotGo, if_pos rfl]
      have hmd : '.' ∉ idxMark ++ intDecChars n := by
        intro hm
        rcases List.mem_append.mp hm with h1 | h1
        · revert h1
          decide
        · exact isDigit_ne (intDecChars_digits hg _ h1) (by decide) rfl
      rw [split_join_path rest hrest _ hmd]
      rw [show List.reverse ([] : List Char) = [] from rfl]
      rw [List.filter_cons_of_neg (by simp)]
      rw [List.filter_cons_of_pos (by simp [idxMark])]
      rw [List.filter_eq_self.mpr
        (fun b hb => by
          simp only [ne_eq, decide_eq_true_eq]
          rcases List.mem_map.mp hb with ⟨seg, hseg, rfl⟩
          exact segBody_ne_nil (hrest seg hseg))]
      rw [List.map_cons]
      rw [show segOf (idxMark ++ intDecChars n) = segOf (segBody (.idx n)) from rfl,
        segOf_segBody hg]
      congr 1
      rw [List.map_map]
      have hmc : ∀ seg ∈ rest, (segOf ∘ segBody) seg = id seg :=
        fun seg hseg => segOf_segBody (hrest seg hseg)
      rw [List.map_congr_left hmc, List.map_id]

/-- C8 (amended): `parsePath (formatPath p) = p` for every path whose integer
segments are non-negative and whose string segments are nonempty, contain
neither `.` nor `[`, and do not begin with the internal index-marker
sentinel; integer segments render as `[i]` and parse back to integers, and
such string segments render dot-separated and parse back to the same
strings.  (The unrestricted claim fails: formatting cannot protect a dot
inside a string segment.) -/
theorem c8_parse_format_roundtrip (p : Path) (h : ∀ seg ∈ p, goodSeg seg) :
    parsePath (formatPath p) = p :=
  parsePath_formatPath p h

/-- C8 witness: the round trip evaluated on the concrete path
`user[2].name`. -/
theorem c8_parse_format_roundtrip_witness :
    (∀ seg ∈ [PathSeg.str "user", PathSeg.idx 2, PathSeg.str "name"], goodSeg seg)
      ∧ parsePath (formatPath [PathSeg.str "user", PathSeg.idx 2, PathSeg.str "name"])
          = [PathSeg.str "user", PathSeg.idx 2, PathSeg.str "name"] :=
  ⟨by decide, c8_parse_format_roundtrip _ (by decide)⟩

/-- C8 counterexample: the claim as stated quantifies over paths with
arbitrary string segments, but the path whose only segment is the string
`"a.b"` formats to `"a.b"`, which parses back as the two segments `a`
and `b`, not the original path. -/
theorem c8_roundtrip_counterexample :
    parsePath (formatPath [PathSeg.str "a.b"]) = [PathSeg.str "a", PathSeg.str "b"]
      ∧ parsePath (formatPath [PathSeg.str "a.b"]) ≠ [PathSeg.str "a.b"] := by
  have h1 : formatPath [PathSeg.str "a.b"] = "a.b" := rfl
  rw [h1]
  constructor
  · simp [parsePath, normalizeToSegments, replIdx, replDQ, replSQ, splitDotGo, segOf,
      isIdxMarker, idxMark, List.isPrefixOf]
  · intro heq
    rw [show parsePath "a.b" = [PathSeg.str "a", PathSeg.str "b"] from by
      simp [parsePath, normalizeToSegments, replIdx, replDQ, replSQ, splitDotGo, segOf,
        isIdxMarker, idxMark, List.isPrefixOf]] at heq
    simp at heq

theorem tryM_shape {rest ds after : List Char} {po : Option (List Char)}
    (h : tryM rest = some (ds, po, after)) :
    ds ≠ [] ∧ (∀ c ∈ ds, c.isDigit = true) ∧
      ((po = none ∧ rest = ds ++ '}' :: after) ∨
        (∃ p, po = some p ∧ p ≠ [] ∧ rest = ds ++ '.' :: (p ++ '}' :: after))) := by
  unfold tryM at h
  split at h
  · exact absurd h (by simp)
  · next hne =>
    split at h
    · next after0 hdw =>
      rw [Option.some.injEq, Prod.mk.injEq, Prod.mk.injEq] at h
      obtain ⟨h1, h2, h3⟩ := h
      subst h1
      subst h2
      subst h3
      refine ⟨hne, fun c hc => List.mem_takeWhile_imp hc, Or.inl ⟨rfl, ?_⟩⟩
      conv_lhs => rw [← List.takeWhile_append_dropWhile (p := Char.isDigit) (l := rest)]
      rw [hdw]
    · next r2 hdw =>
      split at h
      · exact absurd h (by simp)
      · next hpne =>
        split at h
        · next after0 hdw2 =>
          rw [Option.some.injEq, Prod.mk.injEq, Prod.mk.injEq] at h
          obtain ⟨h1, h2, h3⟩ := h
          subst h1
          subst h3
          refine ⟨hne, fun c hc => List.mem_takeWhile_imp hc,
            Or.inr ⟨r2.takeWhile (· ≠ '}'), by rw [← h2], hpne, ?_⟩⟩
          conv_lhs => rw [← List.takeWhile_append_dropWhile (p := Char.isDigit) (l := rest)]
          rw [hdw]
          congr 1
          rw [List.cons_inj_right]
          conv_lhs => rw [← List.takeWhile_append_dropWhile (p := (· ≠ '}')) (l := r2)]
          rw [hdw2]
        · exact absurd h (by simp)
    · exact absurd h (by simp)

theorem tryM_after_len {rest ds after : List Char} {po : Option (List Char)}
    (h : tryM rest = some (ds, po, after)) : after.length < rest.length := by
  rcases tryM_shape h with ⟨hne, -, hsh | ⟨p, -, -, hsh⟩⟩
  · rcases hsh with ⟨-, hr⟩
    rw [hr]
    have : 0 < ds.length := List.length_pos.mpr hne
    simp
    omega
  · rw [hsh]
    have : 0 < ds.length := List.length_pos.mpr hne
    simp
    omega

theorem ScanInv_mono {ms : List TMatch} :
    ∀ {p q : Nat}, p ≤ q → ScanInv q ms → ScanInv p ms := by
  induction ms with
  | nil => intro p q _ _; trivial
  | cons m ms _ =>
    intro p q hpq h
    obtain ⟨h1, h2, h3⟩ := h
    exact ⟨Nat.le_trans hpq h1, h2, h3⟩

theorem scanTGo_inv (fuel : Nat) :
    ∀ (cs : List Char) (pos : Nat), ScanInv pos (scanTGo fuel cs pos) := by
  induction fuel with
  | zero => intro cs pos; trivial
  | succ fuel ih =>
    intro cs pos
    match cs with
    | [] => trivial
    | c :: rest =>
      rw [scanTGo]
      by_cases hc : c = '{'
      · rw [if_pos hc]
        cases htry : tryM rest with
        | none => exact ScanInv_mono (Nat.le_succ pos) (ih rest (pos + 1))
        | some v =>
          obtain ⟨ds, po, after⟩ := v
          exact ⟨Nat.le_refl _, (tryM_shape htry).1, ih after _⟩
      · rw [if_neg hc]
        exact ScanInv_mono (Nat.le_succ pos) (ih rest (pos + 1))

theorem scanT_inv (cs : List Char) (pos : Nat) : ScanInv pos (scanT cs pos) :=
  scanTGo_inv _ cs pos

theorem drop_split {y : List Char} {a b : Nat} (h : a ≤ b) :
    y.drop a = (y.take b).drop a ++ y.drop b := by
  by_cases hb : b ≤ y.length
  · conv_lhs => rw [← List.take_append_drop b y]
    rw [List.drop_append_eq_append_drop, List.length_take, Nat.min_eq_left hb,
      show a - b = 0 from by omega, List.drop_zero]
  · rw [List.take_of_length_le (by omega),
      List.drop_eq_nil_of_le (by omega : y.length ≤ b), List.append_nil]

theorem sliceJS_split {cs : List Char} {a b c : Nat} (h1 : a ≤ b) (h2 : b ≤ c) :
    sliceJS cs a c = sliceJS cs a b ++ sliceJS cs b c := by
  unfold sliceJS
  rw [show cs.take b = (cs.take c).take b from by
    rw [List.take_take, Nat.min_eq_left h2]]
  exact drop_split h1

theorem tplLoop_spec {tpl : List Char} {idMap : Nat → Option String}
    (hid : ∀ i sid, idMap i = some sid → sid ≠ "") :
    ∀ (ms : List TMatch) (values : List DepRef) (result : List Char) (lastIndex : Nat),
      ScanInv lastIndex ms →
      tplLoop tpl idMap ms values result lastIndex
        = (result ++ (tplSpec tpl idMap ms values.length lastIndex).1,
            values ++ (tplSpec tpl idMap ms values.length lastIndex).2) := by
  intro ms
  induction ms with
  | nil => intro values result lastIndex _; simp [tplLoop, tplSpec]
  | cons m ms ih =>
    intro values result lastIndex hinv
    obtain ⟨hpos, hds, hinv'⟩ := hinv
    rw [tplLoop, if_neg hds]
    cases hlook : idMap (digitsVal m.idxStr) with
    | none =>
      simp only [hlook]
      rw [ih _ _ _ hinv', tplSpec, if_neg (by simp [hlook]),
        sliceJS_split hpos (Nat.le_add_right _ _)]
      simp
    | some sid =>
      simp only [hlook]
      rw [if_neg (hid _ _ hlook)]
      rw [ih _ _ _ hinv', tplSpec, if_pos (by simp [hlook])]
      have href : specRef idMap m
          = ⟨sid, match m.path with
              | some p => normalizePath ⟨p⟩
              | none => ""⟩ := by
        simp [specRef, hlook]
      rw [href]
      simp [markerChars]

/-- Source compiler equals the specification-side compiler, provided every
id in the map is nonempty (as the parser's freshly generated identifiers
always are; an empty id would trip JavaScript's falsy test). -/
theorem parseTemplateString_eq_spec (tpl : String) (idMap : Nat → Option String)
    (hid : ∀ i sid, idMap i = some sid → sid ≠ "") :
    parseTemplateString tpl idMap = templateCompileSpec tpl idMap := by
  unfold parseTemplateString templateCompileSpec
  cases hscan : scanT tpl.data 0 with
  | nil => simp [tplSpec]
  | cons m ms =>
    have hinv : ScanInv 0 (m :: ms) := hscan ▸ scanT_inv tpl.data 0
    rw [if_neg (by simp)]
    rw [tplLoop_spec hid _ _ _ _ hinv]
    simp

theorem demoIdMap_ids : ∀ i sid, demoIdMap i = some sid → sid ≠ "" := by
  intro i sid h
  unfold demoIdMap at h
  split at h
  · rw [Option.some.injEq] at h
    rw [← h]
    decide
  · cases h

/-- C4: the template compiler rewrites exactly as specified — a match
`{i}` or `{i.path}` whose index is not in the id map stays verbatim, a
match whose index is in the map emits `{$fromStep: idOf i, $outputKey:
normalize path or ""}` and is replaced by the positional slot `{k}` of its
emission position (duplicates get distinct entries and slots), zero bound
values return the original string, and otherwise a
`{$fromTemplateString, $values}` record is returned; in particular
`"Price: {0.price} USD ({0.currency})"` with `0 ↦ sid-A` compiles to
`"Price: {0} USD ({1})"` over the two value records. -/
theorem c4_template_compiler :
    (∀ (tpl : String) (idMap : Nat → Option String),
        (∀ i sid, idMap i = some sid → sid ≠ "") →
        parseTemplateString tpl idMap = templateCompileSpec tpl idMap)
      ∧ parseTemplateString "Price: {0.price} USD ({0.currency})" demoIdMap
          = .inr ⟨"Price: {0} USD ({1})",
              [⟨"sid-A", "price"⟩, ⟨"sid-A", "currency"⟩]⟩ := by
  constructor
  · exact parseTemplateString_eq_spec
  · simp [parseTemplateString, scanT, scanTGo, tryM, tplLoop, demoIdMap, digitsVal,
      digVal, digCh, sliceJS, markerChars, natDigs, natDigsGo, normalizePath, parsePath,
      formatPath, normalizeToSegments, replIdx, replDQ, replSQ, splitDotGo, segOf,
      isIdxMarker, idxMark, fmtStep, List.isPrefixOf, String.ext_iff]

/-- C4 witness: the compiler/specification agreement applied to the
concrete template `{0}` under `demoIdMap`. -/
theorem c4_template_compiler_witness :
    (∀ i sid, demoIdMap i = some sid → sid ≠ "")
      ∧ parseTemplateString "{0}" demoIdMap = templateCompileSpec "{0}" demoIdMap :=
  ⟨demoIdMap_ids, c4_template_compiler.1 "{0}" demoIdMap demoIdMap_ids⟩

theorem mapMEx_ok_mem {f : α → Except String β} :
    ∀ {l : List α} {l2 : List β}, mapMEx f l = .ok l2 → ∀ y ∈ l2, ∃ x ∈ l, f x = .ok y := by
  intro l
  induction l with
  | nil =>
    intro l2 h y hy
    rw [mapMEx] at h
    rw [Except.ok.injEq] at h
    subst h
    cases hy
  | cons a l ih =>
    intro l2 h y hy
    rw [mapMEx] at h
    split at h
    · next b hb =>
      split at h
      · next bs hbs =>
        rw [Except.ok.injEq] at h
        subst h
        rcases List.mem_cons.mp hy with h1 | h1
        · exact ⟨a, List.mem_cons_self a l, h1 ▸ hb⟩
        · rcases ih hbs y h1 with ⟨x, hx, hfx⟩
          exact ⟨x, List.mem_cons_of_mem a hx, hfx⟩
      · cases h
    · cases h

theorem transformF_keys {idMap : Nat → Option String} :
    ∀ (f : JFields) (f2 : VFields), transformF idMap f = .ok f2 →
      ∀ k, vHasKey f2 k = jHasKey f k := by
  intro f
  induction f using JFields.rec (motive_1 := fun _ => True) (motive_2 := fun _ => True)
  all_goals try trivial
  · intro f2 h k
    rw [show transformF idMap JFields.nil = Except.ok VFields.nil from rfl] at h
    rw [Except.ok.injEq] at h
    subst h
    rfl
  · rename_i key v tl
    intro ih f2 h k
    rw [transformF.eq_def] at h
    simp only [] at h
    split at h
    · rename_i v2 hv2
      split at h
      · rename_i tl2 htl
        rw [Except.ok.injEq] at h
        subst h
        simp only [vHasKey, vLookup, jHasKey, jLookup]
        split
        · simp
        · exact ih _ htl k
      · cases h
    · cases h

theorem transformF_noRaw :
    ∀ (f : JFields) (idMap : Nat → Option String) (f2 : VFields),
      transformF idMap f = .ok f2 → noRawF f2 = true := by
  intro f
  induction f using JFields.rec
    (motive_1 := fun v => ∀ idMap w, transformParamsValue idMap v = .ok w → noRaw w = true)
    (motive_2 := fun l => ∀ idMap l2, transformL idMap l = .ok l2 → noRawL l2 = true)
  · -- JValue.str
    rename_i s idMap w h
    rw [transformParamsValue.eq_def] at h
    simp only [] at h
    split at h
    · rw [Except.ok.injEq] at h
      subst h
      rfl
    · rw [Except.ok.injEq] at h
      subst h
      rfl
  · -- JValue.num
    rename_i n idMap w h
    rw [show transformParamsValue idMap (JValue.num n) = .ok (.num n) from rfl] at h
    rw [Except.ok.injEq] at h
    subst h
    rfl
  · -- JValue.bool
    rename_i b idMap w h
    rw [show transformParamsValue idMap (JValue.bool b) = .ok (.bool b) from rfl] at h
    rw [Except.ok.injEq] at h
    subst h
    rfl
  · -- JValue.null
    rename_i idMap w h
    rw [show transformParamsValue idMap JValue.null = .ok .null from rfl] at h
    rw [Except.ok.injEq] at h
    subst h
    rfl
  · -- JValue.arr
    rename_i l ihl idMap w h
    rw [transformParamsValue.eq_def] at h
    simp only [] at h
    split at h
    · rename_i l2 hl2
      rw [Except.ok.injEq] at h
      subst h
      exact ihl idMap l2 hl2
    · cases h
  · -- JValue.obj
    rename_i fields ihf idMap w h
    rw [transformParamsValue.eq_def] at h
    simp only [] at h
    split at h
    · -- raw reference branch
      next hraw =>
      split at h
      · cases h
      · rename_i sid hsid
        split at h
        · rename_i key hkey
          rw [Except.ok.injEq] at h
          subst h
          rfl
        · cases h
    · -- plain object branch
      next hraw =>
      split at h
      · rename_i f2 hf2
        rw [Except.ok.injEq] at h
        subst h
        simp only [noRaw]
        have hks1 := transformF_keys _ _ hf2 "fromStep"
        have hks2 := transformF_keys _ _ hf2 "outputKey"
        have hraw2 : isRawRef fields = false := by
          revert hraw
          cases isRawRef fields <;> simp
        rw [isRawRef] at hraw2
        rw [Bool.and_eq_true]
        constructor
        · rw [hks1, hks2]
          simp only [Bool.not_eq_true']
          exact hraw2
        · exact ihf idMap f2 hf2
      · cases h
  · -- JList.nil
    rename_i idMap l2 h
    rw [show transformL idMap JList.nil = .ok .nil from rfl] at h
    rw [Except.ok.injEq] at h
    subst h
    rfl
  · -- JList.cons
    rename_i v tl ihv ihtl idMap l2 h
    rw [transformL.eq_def] at h
    simp only [] at h
    split at h
    · rename_i v2 hv2
      split at h
      · rename_i tl2 htl
        rw [Except.ok.injEq] at h
        subst h
        rw [show noRawL (VList.cons v2 tl2) = (noRaw v2 && noRawL tl2) from rfl]
        rw [Bool.and_eq_true]
        exact ⟨ihv idMap v2 hv2, ihtl idMap tl2 htl⟩
      · cases h
    · cases h
  · -- JFields.nil
    rename_i idMap f2 h
    rw [show transformF idMap JFields.nil = .ok .nil from rfl] at h
    rw [Except.ok.injEq] at h
    subst h
    rfl
  · -- JFields.cons
    rename_i k v tl ihv ihtl idMap f2
    intro h
    rw [transformF.eq_def] at h
    simp only [] at h
    split at h
    · rename_i v2 hv2
      split at h
      · rename_i tl2 htl
        rw [Except.ok.injEq] at h
        subst h
        rw [show noRawF (VFields.cons k v2 tl2) = (noRaw v2 && noRawF tl2) from rfl]
        rw [Bool.and_eq_true]
        exact ⟨ihv idMap v2 hv2, ihtl idMap tl2 htl⟩
      · cases h
    · cases h

theorem transform_raw_ok {idMap : Nat → Option String} {fields : JFields} {n : Int}
    {id key : String} (hfs : jLookup fields "fromStep" = some (.num n)) (h0 : 0 ≤ n)
    (hmap : idMap n.toNat = some id)
    (hok : jLookup fields "outputKey" = some (.str key)) :
    transformParamsValue idMap (.obj fields) = .ok (.dep ⟨id, normalizePath key⟩) := by
  have hraw : isRawRef fields = true := by
    simp [isRawRef, jHasKey, hfs, hok]
  rw [transformParamsValue.eq_def]
  simp only []
  rw [if_pos hraw, hfs]
  rw [show refStepId idMap (some (JValue.num n)) = idMap n.toNat from by
    rw [refStepId, if_pos h0]]
  rw [hmap]
  simp only []
  rw [hok]

theorem transform_raw_missing {idMap : Nat → Option String} {fields : JFields}
    (hraw : isRawRef fields = true)
    (hmiss : refStepId idMap (jLookup fields "fromStep") = none) :
    transformParamsValue idMap (.obj fields)
      = .error "Invalid dependency reference: step not found" := by
  rw [transformParamsValue.eq_def]
  simp only []
  rw [if_pos hraw, hmiss]

/-- C5 (amended): after a normal return of `parsePlanSteps` no step's
arguments contain a raw numeric step reference (an object bearing both
`fromStep` and `outputKey` keys) at any depth; every raw reference the
transformation reaches — one not nested inside another raw reference
object, whose interior the rewrite discards wholesale — is rewritten to
`{$fromStep: freshId, $outputKey: normalized path}` when its index is in
the plan, and makes `parsePlanSteps` throw when it is not. -/
theorem c5_parser_raw_refs :
    (∀ (rawPlan : List RawStep) (ids : Nat → String) (steps : List PlanStep),
        parsePlanSteps rawPlan ids = .ok steps →
        ∀ step ∈ steps, noRawF step.arguments = true)
      ∧ (∀ (idMap : Nat → Option String) (fields : JFields) (n : Int) (id key : String),
          jLookup fields "fromStep" = some (.num n) → 0 ≤ n → idMap n.toNat = some id →
          jLookup fields "outputKey" = some (.str key) →
          transformParamsValue idMap (.obj fields) = .ok (.dep ⟨id, normalizePath key⟩))
      ∧ (∀ (idMap : Nat → Option String) (fields : JFields),
          isRawRef fields = true →
          refStepId idMap (jLookup fields "fromStep") = none →
          transformParamsValue idMap (.obj fields)
            = .error "Invalid dependency reference: step not found") := by
  refine ⟨?_, fun _ _ _ _ _ => transform_raw_ok, fun _ _ => transform_raw_missing⟩
  intro rawPlan ids steps h step hstep
  rw [parsePlanSteps] at h
  rcases mapMEx_ok_mem h step hstep with ⟨p, hp, hps⟩
  split at hps
  · next args hargs =>
    rw [Except.ok.injEq] at hps
    subst hps
    exact transformF_noRaw _ _ _ hargs
  · cases hps

/-- C5 witness: a raw reference with a mapped index rewritten at a
concrete record. -/
theorem c5_parser_raw_refs_witness :
    (jLookup (.cons "fromStep" (.num 0) (.cons "outputKey" (.str "k") .nil)) "fromStep"
        = some (.num 0)
      ∧ (0 : Int) ≤ 0
      ∧ demoIdMap (0 : Int).toNat = some "sid-A"
      ∧ jLookup (.cons "fromStep" (.num 0) (.cons "outputKey" (.str "k") .nil)) "outputKey"
          = some (.str "k"))
      ∧ transformParamsValue demoIdMap
          (.obj (.cons "fromStep" (.num 0) (.cons "outputKey" (.str "k") .nil)))
        = .ok (.dep ⟨"sid-A", normalizePath "k"⟩) :=
  ⟨⟨rfl, by decide, rfl, rfl⟩,
    c5_parser_raw_refs.2.1 demoIdMap _ 0 "sid-A" "k" rfl (by decide) rfl rfl⟩

/-- C5 counterexample: the plan below contains — at depth, inside the extra
field of a recognized raw reference — a raw reference whose index 7 names
no step of the one-step plan, yet `parsePlanSteps` returns normally (the
rewrite discards the nested object without inspecting it) instead of
throwing as the claim demands. -/
theorem c5_nested_raw_counterexample :
    jHasRawIdx (.obj cexArgs) 7 = true
      ∧ cexPlan.length = 1
      ∧ parsePlanSteps cexPlan cexIds
          = .ok [{ stepId := "id-0", status := .pending, toolName := "toolA",
                   arguments := .cons "a" (.dep ⟨"id-0", "k"⟩) .nil, thought := none }] := by
  refine ⟨by decide, rfl, ?_⟩
  simp [parsePlanSteps, cexPlan, cexIds, cexArgs, mapMEx, transformParams, transformF,
    transformParamsValue, isRawRef, jHasKey, jLookup, refStepId, natDigs, natDigsGo,
    digCh, normalizePath, parsePath, formatPath, fmtStep, normalizeToSegments, replIdx,
    replDQ, replSQ, splitDotGo, segOf, isIdxMarker, idxMark, List.isPrefixOf,
    String.ext_iff]

theorem gsapOpts_collect (seg : PathSeg) (rest : List PathSeg) (opts : ZSList) :
    gsapOpts (gsapPath rest) seg opts = collectSchemas opts (seg :: rest) := by
  induction opts using ZSList.rec (motive_1 := fun _ => True) (motive_3 := fun _ => True)
    (motive_4 := fun _ => True)
  all_goals try trivial
  · rename_i s tl ihs ih
    cases hg : gsapSeg (gsapPath rest) seg s with
    | some r => simp [gsapOpts, collectSchemas, getSchemaAtPath, gsapPath, hg, ih]
    | none => simp [gsapOpts, collectSchemas, getSchemaAtPath, gsapPath, hg, ih]

/-- C6: on a union (`anyOf`) or exclusive-union (`oneOf`) node with a
nonempty path, schema-at-path resolves the remaining path in every option
independently and combines the successes — none: fail, exactly one: that
schema, several: their union — and in particular
`platformInfo.contractAddress` resolves against
`anyOf(object-with-contractAddress, null)` to the string schema, which is
compatible with a string field, so the reference validates. -/
theorem c6_union_descent :
    (∀ (opts : ZSList) (seg : PathSeg) (rest : List PathSeg),
        getSchemaAtPath (.union opts) (seg :: rest)
            = unionResult (collectSchemas opts (seg :: rest))
          ∧ getSchemaAtPath (.xor opts) (seg :: rest)
              = unionResult (collectSchemas opts (seg :: rest)))
      ∧ (∀ (opts : ZSList) (seg : PathSeg) (rest : List PathSeg),
          collectSchemas opts (seg :: rest) = .nil →
          getSchemaAtPath (.union opts) (seg :: rest) = none)
      ∧ (∀ (opts : ZSList) (seg : PathSeg) (rest : List PathSeg) (one : ZSchema),
          collectSchemas opts (seg :: rest) = .cons one .nil →
          getSchemaAtPath (.union opts) (seg :: rest) = some one)
      ∧ (∀ (opts : ZSList) (seg : PathSeg) (rest : List PathSeg) (r1 r2 : ZSchema)
            (more : ZSList),
          collectSchemas opts (seg :: rest) = .cons r1 (.cons r2 more) →
          getSchemaAtPath (.union opts) (seg :: rest)
            = some (.union (.cons r1 (.cons r2 more))))
      ∧ (getSchemaAtPath platSchema (parsePath "platformInfo.contractAddress")
            = some .string
          ∧ isSchemaCompatible .string .string = true) := by
  have hmain : ∀ (opts : ZSList) (seg : PathSeg) (rest : List PathSeg),
      getSchemaAtPath (.union opts) (seg :: rest)
          = unionResult (collectSchemas opts (seg :: rest))
        ∧ getSchemaAtPath (.xor opts) (seg :: rest)
            = unionResult (collectSchemas opts (seg :: rest)) := by
    intro opts seg rest
    constructor
    · show unionResult (gsapOpts (gsapPath rest) seg opts) = _
      rw [gsapOpts_collect]
    · show unionResult (gsapOpts (gsapPath rest) seg opts) = _
      rw [gsapOpts_collect]
  refine ⟨hmain, ?_, ?_, ?_, ?_, ?_⟩
  · intro opts seg rest hcol
    rw [(hmain opts seg rest).1, hcol]
    rfl
  · intro opts seg rest one hcol
    rw [(hmain opts seg rest).1, hcol]
    rfl
  · intro opts seg rest r1 r2 more hcol
    rw [(hmain opts seg rest).1, hcol]
    rfl
  · show gsapPath (parsePath "platformInfo.contractAddress") platSchema = some .string
    rw [show parsePath "platformInfo.contractAddress"
        = [PathSeg.str "platformInfo", PathSeg.str "contractAddress"] from by
      simp [parsePath, normalizeToSegments, replIdx, replDQ, replSQ, splitDotGo, segOf,
        isIdxMarker, idxMark, List.isPrefixOf]]
    rfl
  · rfl

/-- C7 counterexample: an integer segment on a tuple schema (compiled from
`prefixItems`) fails — `getSchemaAtPath` answers `undefined` — although the
same segment on a plain array schema advances to the element type. -/
theorem c7_tuple_counterexample :
    getSchemaAtPath (.tuple (.cons .number (.cons .number .nil))) [PathSeg.idx 0] = none
      ∧ getSchemaAtPath (.array .number) [PathSeg.idx 0] = some .number :=
  ⟨rfl, rfl⟩

/-- C7 (amended): an integer — or purely-decimal string — segment succeeds
only on a plain array schema, advancing to its element type; on a tuple
schema (`prefixItems`) the lookup fails, because the integer-segment branch
tests `instanceof ZodArray`, which a `ZodTuple` is not. -/
theorem c7_tuple_index_fails :
    (∀ (items : ZSList) (n : Int) (rest : List PathSeg),
        getSchemaAtPath (.tuple items) (.idx n :: rest) = none)
      ∧ (∀ (items : ZSList) (s : String) (rest : List PathSeg),
          getSchemaAtPath (.tuple items) (.str s :: rest) = none)
      ∧ (∀ (e : ZSchema) (n : Int) (rest : List PathSeg),
          getSchemaAtPath (.array e) (.idx n :: rest) = getSchemaAtPath e rest)
      ∧ (∀ (e : ZSchema) (s : String) (rest : List PathSeg), isNumericString s = true →
          getSchemaAtPath (.array e) (.str s :: rest) = getSchemaAtPath e rest) := by
  refine ⟨fun _ _ _ => rfl, fun _ _ _ => rfl, fun _ _ _ => rfl, ?_⟩
  intro e s rest h
  show gsapSeg (gsapPath rest) (.str s) (.array e) = _
  rw [gsapSeg]
  rw [if_pos h]
  rfl

/-- C7 witness: the amended behaviour evaluated on a concrete array schema
and the decimal segment `"2"`. -/
theorem c7_tuple_index_fails_witness :
    isNumericString "2" = true
      ∧ getSchemaAtPath (.array .number) [PathSeg.str "2"] = getSchemaAtPath .number [] :=
  ⟨by decide, c7_tuple_index_fails.2.2.2 .number "2" [] (by decide)⟩

theorem dollarExpand_id (m b a : List Char) :
    ∀ (repl : List Char), '$' ∉ repl → dollarExpand m b a repl = repl
  | [], _ => by simp [dollarExpand]
  | [c], h => by
    have hc : c ≠ '$' := fun e => h (by simp [e])
    simp [dollarExpand, hc]
  | c :: d :: rest, h => by
    have hc : c ≠ '$' := fun e => h (by simp [e])
    have ih := dollarExpand_id m b a (d :: rest) fun hm => h (List.mem_cons_of_mem _ hm)
    simp only [dollarExpand, if_neg hc, ih]

/-- The first occurrence of a pattern beginning with `{` in a string whose
prefix is brace-free sits exactly past that prefix. -/
theorem replFirstAux_boundary {pt repl : List Char} :
    ∀ (a before rest : List Char), '{' ∉ a →
    replFirstAux ('{' :: pt) repl before (a ++ ('{' :: pt) ++ rest)
      = some (before ++ a ++ dollarExpand ('{' :: pt) (before ++ a) rest repl ++ rest) := by
  intro a
  induction a with
  | nil =>
    intro before rest _
    simp only [List.nil_append, replFirstAux]
    rw [if_pos (by simp [List.isPrefixOf_iff_prefix])]
    simp [List.drop_left]
  | cons x a' ih =>
    intro before rest hx
    have hxne : x ≠ '{' := fun h => hx (h ▸ List.mem_cons_self x a')
    rw [show (x :: a') ++ ('{' :: pt) ++ rest = x :: (a' ++ ('{' :: pt) ++ rest) from rfl]
    rw [replFirstAux]
    rw [if_neg]
    · rw [ih (before ++ [x]) rest (fun h => hx (List.mem_cons_of_mem _ h))]
      simp
    · intro hpre
      rw [List.isPrefixOf_iff_prefix] at hpre
      rcases hpre with ⟨u, hu⟩
      simp at hu
      exact hxne hu.1.symm

theorem jsReplace_boundary {a rest repl pt : List Char} (ha : '{' ∉ a)
    (hr : '$' ∉ repl) :
    jsReplace (a ++ ('{' :: pt) ++ rest) ('{' :: pt) repl = a ++ repl ++ rest := by
  rw [jsReplace, replFirstAux_boundary a [] rest ha]
  simp [dollarExpand_id _ _ _ _ hr]

/-- Running the resolution loop over a weave-shaped accumulator with
brace-free chunks and brace- and dollar-free substitutions leaves no brace
at all in the result. -/
theorem tplLoop_no_brace (O : String → Option EVal) :
    ∀ (vals : List DepRef) (chunks : List (List Char)) (k : Nat) (pre c0 : List Char),
      chunks.length = vals.length →
      '{' ∉ pre → '}' ∉ pre → '{' ∉ c0 → '}' ∉ c0 →
      (∀ c ∈ chunks, '{' ∉ c ∧ '}' ∉ c) →
      (∀ r ∈ vals, '{' ∉ resolvedStr O r ∧ '}' ∉ resolvedStr O r ∧ '$' ∉ resolvedStr O r) →
      '{' ∉ tplLoopRes O (pre ++ weave k c0 chunks) k vals
        ∧ '}' ∉ tplLoopRes O (pre ++ weave k c0 chunks) k vals := by
  intro vals
  induction vals with
  | nil =>
    intro chunks k pre c0 hlen hp1 hp2 hc1 hc2 hch hv
    have hce : chunks = [] := List.length_eq_zero.mp (by simpa using hlen)
    subst hce
    rw [weave, tplLoopRes]
    simp only [List.mem_append]
    exact ⟨fun h => h.elim hp1 hc1, fun h => h.elim hp2 hc2⟩
  | cons r vals' ih =>
    intro chunks k pre c0 hlen hp1 hp2 hc1 hc2 hch hv
    match chunks, hlen with
    | c :: crest, hlen =>
      rw [weave, tplLoopRes]
      have hsub := hv r (List.mem_cons_self r vals')
      have hassoc : pre ++ (c0 ++ markerChars k ++ weave (k + 1) c crest)
          = (pre ++ c0) ++ ('{' :: (natDigs k ++ ['}'])) ++ weave (k + 1) c crest := by
        rw [show markerChars k = '{' :: (natDigs k ++ ['}']) from rfl]
        simp [List.append_assoc]
      rw [hassoc]
      rw [show ('{' :: (natDigs k ++ ['}'])) = markerChars k from rfl]
      rw [show markerChars k = '{' :: (natDigs k ++ ['}']) from rfl]
      rw [jsReplace_boundary (by simp only [List.mem_append]; exact fun h => h.elim hp1 hc1)
        hsub.2.2]
      have hres := ih crest (k + 1) (pre ++ c0 ++ resolvedStr O r) c
        (by simpa using hlen)
        (by simp only [List.mem_append]
            rintro ((h | h) | h)
            · exact hp1 h
            · exact hc1 h
            · exact hsub.1 h)
        (by simp only [List.mem_append]
            rintro ((h | h) | h)
            · exact hp2 h
            · exact hc2 h
            · exact hsub.2.1 h)
        (hch c (List.mem_cons_self c crest)).1 (hch c (List.mem_cons_self c crest)).2
        (fun d hd => hch d (List.mem_cons_of_mem _ hd))
        (fun d hd => hv d (List.mem_cons_of_mem _ hd))
      exact hres

theorem no_brace_no_marker {res : List Char} (h : '{' ∉ res) (i : Nat) :
    ¬ (markerChars i).IsInfix res := by
  rintro ⟨s, t, hst⟩
  exact h (hst ▸ (by simp [markerChars]))

theorem parsePath_empty : parsePath "" = [] := by
  simp [parsePath, normalizeToSegments, replIdx, replDQ, replSQ, splitDotGo, segOf,
    isIdxMarker, List.isPrefixOf]

theorem resolvedStr_tplO : resolvedStr tplO ⟨"s", ""⟩ = ['x'] := by
  simp [resolvedStr, parsePath_empty, tplO, eGetNested, eToStrO, eToStrL]

/-- C9 counterexample: a template reference whose string carries the
marker `{0}` twice.  Resolution replaces only the first occurrence per
value and later values look for their own markers, so the second `{0}`
survives into the output although `0 < len($values)`. -/
theorem c9_duplicate_marker_counterexample :
    resolveValue tplO (.tpl tplCex) = .ok (.str "x{0}")
      ∧ (markerChars 0).IsInfix "x{0}".data ∧ tplCex.values.length = 2 := by
  refine ⟨?_, by decide, rfl⟩
  have h0 : resolveValue tplO (.tpl tplCex)
      = .ok (.str ⟨tplLoopRes tplO "{0}{0}".data 0 [⟨"s", ""⟩, ⟨"s", ""⟩]⟩) := rfl
  rw [h0]
  rw [tplLoopRes, tplLoopRes, tplLoopRes, resolvedStr_tplO]
  rw [show jsReplace (jsReplace "{0}{0}".data (markerChars 0) ['x']) (markerChars (0 + 1)) ['x']
      = "x{0}".data from by decide]

/-- C9 (amended): when every placeholder `{i}`, `i < len($values)`, occurs
exactly once in the template string, in increasing order between
brace-free chunks — the shape the compiler emits when every match binds —
and each substituted string contains no brace and no dollar sign, the
resolved string contains no `{i}` substring for any `i`. -/
theorem c9_template_resolution (O : String → Option EVal) (t : TplRef)
    (c0 : List Char) (chunks : List (List Char))
    (hlen : chunks.length = t.values.length)
    (hw : t.fromTemplateString.data = weave 0 c0 chunks)
    (hc0 : '{' ∉ c0 ∧ '}' ∉ c0)
    (hch : ∀ c ∈ chunks, '{' ∉ c ∧ '}' ∉ c)
    (hvals : ∀ r ∈ t.values,
      '{' ∉ resolvedStr O r ∧ '}' ∉ resolvedStr O r ∧ '$' ∉ resolvedStr O r) :
    resolveValue O (.tpl t)
        = .ok (.str ⟨tplLoopRes O t.fromTemplateString.data 0 t.values⟩)
      ∧ ∀ i : Nat,
        ¬ (markerChars i).IsInfix (tplLoopRes O t.fromTemplateString.data 0 t.values) := by
  refine ⟨rfl, fun i => no_brace_no_marker ?_ i⟩
  have h := tplLoop_no_brace O t.values chunks 0 [] c0 hlen (by simp) (by simp)
    hc0.1 hc0.2 hch hvals
  rw [hw]
  simpa using h.1

/-- C9 witness: the amended theorem evaluated on the template `a{0}b` with
one value resolving to `x`. -/
theorem c9_template_resolution_witness :
    ([['b']] : List (List Char)).length = [(⟨"s", ""⟩ : DepRef)].length
      ∧ (resolveValue tplO (.tpl ⟨"a{0}b", [⟨"s", ""⟩]⟩)
            = .ok (.str ⟨tplLoopRes tplO "a{0}b".data 0 [⟨"s", ""⟩]⟩)
          ∧ ∀ i : Nat,
            ¬ (markerChars i).IsInfix (tplLoopRes tplO "a{0}b".data 0 [⟨"s", ""⟩])) :=
  ⟨by decide, c9_template_resolution tplO ⟨"a{0}b", [⟨"s", ""⟩]⟩ "a".data [['b']]
    (by decide) (by decide) (by decide) (by decide)
    (by
      intro r hr
      rw [show r = (⟨"s", ""⟩ : DepRef) from by simpa using hr]
      rw [resolvedStr_tplO]
      exact ⟨by decide, by decide, by decide⟩)⟩

theorem depReady_iff {st : String → Option PlanStepStatus} {d : Option Value} :
    depReady st d = true ↔ ∃ s, d = some (Value.str s) ∧ st s = some .done := by
  cases d with
  | none => simp [depReady]
  | some v => cases v <;> simp [depReady]

theorem mem_readySteps {steps : List PlanStep} {st : String → Option PlanStepStatus}
    {stp : PlanStep} :
    stp ∈ readySteps steps st ↔
      stp ∈ steps ∧ st stp.stepId = some .pending
        ∧ ∀ d ∈ extractDeps stp.arguments, depReady st d = true := by
  simp [readySteps, List.mem_filter, List.all_eq_true, and_assoc]

theorem upd_self {f : String → Option α} {k : String} {v : α} : upd f k v k = some v := by
  simp [upd]

theorem upd_other {f : String → Option α} {k k' : String} {v : α} (h : k' ≠ k) :
    upd f k v k' = f k' := by
  simp [upd, h]

theorem filter_toggle {steps : List PlanStep}
    (hnd : (steps.map PlanStep.stepId).Nodup) {stp : PlanStep} {p q : PlanStep → Bool} :
    stp ∈ steps → p stp = false → q stp = true →
    (∀ u ∈ steps, u.stepId ≠ stp.stepId → p u = q u) →
    (∀ u ∈ steps, u.stepId = stp.stepId → u = stp) →
    (steps.filter q).Perm (steps.filter p ++ [stp]) := by
  induction steps with
  | nil => intro h; exact absurd h (List.not_mem_nil stp)
  | cons u tl ih =>
    intro hmem hp hq hagree hsame
    have hndtl : (tl.map PlanStep.stepId).Nodup := (List.nodup_cons.mp hnd).2
    by_cases hu : u = stp
    · subst hu
      have hnin : ∀ x ∈ tl, x.stepId ≠ u.stepId := by
        intro x hx he
        exact (List.nodup_cons.mp hnd).1 (he ▸ List.mem_map_of_mem PlanStep.stepId hx)
      have hfe : tl.filter q = tl.filter p := by
        apply List.filter_congr
        intro x hx
        exact (hagree x (List.mem_cons_of_mem _ hx) (hnin x hx)).symm
      simp only [List.filter_cons, hq, hp]
      rw [hfe]
      simpa using (@List.perm_append_comm _ [u] (tl.filter p))
    · have hid : u.stepId ≠ stp.stepId := by
        intro he
        exact hu (hsame u (List.mem_cons_self u tl) he)
      have hmem' : stp ∈ tl := by
        cases List.mem_cons.mp hmem with
        | inl h => exact absurd h.symm hu
        | inr h => exact h
      have hpq : p u = q u := hagree u (List.mem_cons_self u tl) hid
      have htl := ih hndtl hmem' hp hq
        (fun x hx hne => hagree x (List.mem_cons_of_mem _ hx) hne)
        (fun x hx he => hsame x (List.mem_cons_of_mem _ hx) he)
      simp only [List.filter_cons, ← hpq]
      cases hc : p u with
      | true => simpa using htl.cons u
      | false => simpa using htl

theorem init_inv (steps : List PlanStep) (tools : List ToolM) :
    Inv steps tools (initState steps) 0 := by
  refine ⟨?_, ?_, ?_, ?_, ?_, ?_, ?_, ?_, ?_⟩
  · intro id
    simp [initState, List.any_eq_true, List.mem_map]
  · intro id wd h; simp [initState] at h
  · intro id h; simp [initState]
  · intro id
    constructor <;> · simp only [initState]; split <;> simp
  · intro stp hs wd h; simp [initState] at h
  · intro stp hs h
    exfalso
    simp only [initState] at h
    split at h <;> simp_all
  · intro stp hs h
    exfalso
    simp only [initState] at h
    split at h <;> simp_all
  · intro id h
    exfalso
    simp only [initState] at h
    split at h <;> simp_all
  · have : (steps.filter fun stp => settledB (initState steps) stp.stepId) = [] := by
      apply List.filter_eq_nil.mpr
      intro stp hs
      simp [settledB, initState]
      split <;> simp_all
    rw [show (initState steps).results = [] from rfl, this]
    simp

theorem id_inj {l : List PlanStep} (h : (l.map PlanStep.stepId).Nodup) :
    ∀ u ∈ l, ∀ v ∈ l, u.stepId = v.stepId → u = v :=
  List.inj_on_of_nodup_map h

theorem settledB_true {s : ExecState} {id : String} {v : PlanStepStatus}
    (hst : s.status id = some v) (hv : v ≠ .pending) : settledB s id = true := by
  cases v <;> simp_all [settledB]

theorem inv_mono {steps tools s w} (h : Inv steps tools s w) : Inv steps tools s (w + 1) :=
  { h with wave_lt := fun id wd hw => Nat.lt_succ_of_lt (h.wave_lt id wd hw) }

theorem status_mem {steps : List PlanStep} {tools : List ToolM} {s : ExecState} {w : Nat}
    (hinv : Inv steps tools s w) {id : String} {v : PlanStepStatus}
    (h : s.status id = some v) : id ∈ steps.map PlanStep.stepId :=
  (hinv.dom id).mp (by simp [h])

theorem record_inv_core {steps : List PlanStep} {tools : List ToolM} {s₀ acc : ExecState}
    {w : Nat} {stp : PlanStep}
    (hnd : (steps.map PlanStep.stepId).Nodup)
    (hs0inv : Inv steps tools s₀ w)
    (hinv : Inv steps tools acc (w + 1))
    (hmem : stp ∈ steps)
    (hpend : acc.status stp.stepId = some .pending)
    (hdeps : ∀ d ∈ extractDeps stp.arguments, depReady s₀.status d = true)
    (hkeep : ∀ id, s₀.status id = some .done →
      acc.status id = some .done ∧ acc.wave id = s₀.wave id)
    {v : PlanStepStatus} (hv1 : v ≠ .pending) (hv2 : v ≠ .executing) (hv3 : v ≠ .timeout)
    {entry : StepRes} (hent : entry.stepId = stp.stepId)
    {newouts : String → Option EVal}
    (houtother : ∀ id, id ≠ stp.stepId → newouts id = acc.outputs id)
    (hdone_case : v = .done →
      ∃ tool rargs out, lookupToolLast tools stp.toolName = some tool
        ∧ tool.handler rargs = .ok out ∧ newouts stp.stepId = some out
        ∧ entry = ⟨stp.stepId, stp.toolName, rargs, out, none⟩)
    (hfail_case : v = .failed →
      ∃ tool rargs msg, lookupToolLast tools stp.toolName = some tool
        ∧ tool.handler rargs = .error msg
        ∧ entry = ⟨stp.stepId, stp.toolName, rargs, .null, some msg⟩) :
    Inv steps tools
      ⟨newouts, upd acc.status stp.stepId v, upd acc.wave stp.stepId w,
        acc.results ++ [entry]⟩ (w + 1) := by
  have hidof : ∀ {id : String}, s₀.status id = some .done → id ≠ stp.stepId := by
    intro id hdn he
    have h2 := (hkeep id hdn).1
    rw [he, hpend] at h2
    exact absurd (Option.some.inj h2) (by decide)
  constructor
  all_goals dsimp only
  case dom =>
    intro id
    by_cases he : id = stp.stepId
    · subst he
      simp only [upd_self, Option.isSome_some, true_iff]
      exact List.mem_map_of_mem _ hmem
    · simp only [upd_other he]
      exact hinv.dom id
  case wave_lt =>
    intro id wd hw
    by_cases he : id = stp.stepId
    · subst he; rw [upd_self] at hw
      have h2 : w = wd := Option.some.inj hw
      omega
    · exact hinv.wave_lt id wd (by rwa [upd_other he] at hw)
  case pend_wave =>
    intro id hst
    by_cases he : id = stp.stepId
    · subst he; rw [upd_self] at hst
      exact absurd (Option.some.inj hst) hv1
    · rw [upd_other he] at hst
      rw [upd_other he]
      exact hinv.pend_wave id hst
  case no_exec =>
    intro id
    by_cases he : id = stp.stepId
    · subst he
      rw [upd_self]
      exact ⟨fun h => hv2 (Option.some.inj h), fun h => hv3 (Option.some.inj h)⟩
    · rw [upd_other he]
      exact hinv.no_exec id
  case disp =>
    intro stp' hmem' wd hw d hd
    by_cases he : stp'.stepId = stp.stepId
    · have hstp : stp' = stp := id_inj hnd stp' hmem' stp hmem he
      subst hstp
      rw [upd_self] at hw
      have hwd : w = wd := Option.some.inj hw
      subst hwd
      rcases depReady_iff.mp (hdeps d hd) with ⟨ds, hde, hds⟩
      have hdsne : ds ≠ stp'.stepId := hidof hds
      have hacc := hkeep ds hds
      have hdsmem : ds ∈ steps.map PlanStep.stepId := status_mem hs0inv hds
      rcases List.mem_map.mp hdsmem with ⟨du, hdu, hdei⟩
      rcases (hs0inv.done_res du hdu (hdei ▸ hds)).1 with ⟨wdd, hwdd⟩
      rw [hdei] at hwdd
      refine ⟨ds, hde, ?_, wdd, ?_, ?_⟩
      · rw [upd_other hdsne]; exact hacc.1
      · rw [upd_other hdsne, hacc.2]; exact hwdd
      · exact hs0inv.wave_lt ds wdd hwdd
    · rw [upd_other he] at hw
      rcases hinv.disp stp' hmem' wd hw d hd with ⟨ds, hde, hds, wdd, hwdd, hlt⟩
      have hdsne : ds ≠ stp.stepId := by
        intro hee
        rw [hee, hpend] at hds
        exact absurd (Option.some.inj hds) (by decide)
      exact ⟨ds, hde, by rwa [upd_other hdsne], wdd, by rwa [upd_other hdsne], hlt⟩
  case done_res =>
    intro stp' hmem' hst
    by_cases he : stp'.stepId = stp.stepId
    · have hstp : stp' = stp := id_inj hnd stp' hmem' stp hmem he
      subst hstp
      rw [upd_self] at hst
      have hvd : v = .done := Option.some.inj hst
      rcases hdone_case hvd with ⟨tool, rargs, out, htool, hh, hout, hentry⟩
      refine ⟨⟨w, upd_self⟩, tool, rargs, out, htool, hh, hout, ?_⟩
      rw [← hentry]
      exact List.mem_append_right _ (List.mem_singleton_self _)
    · rw [upd_other he] at hst
      rcases hinv.done_res stp' hmem' hst with
        ⟨⟨wd, hwd⟩, tool, rargs, out, htool, hh, hout, hres⟩
      refine ⟨⟨wd, by rwa [upd_other he]⟩, tool, rargs, out, htool, hh, ?_, ?_⟩
      · rw [houtother _ he]; exact hout
      · exact List.mem_append_left _ hres
  case failed_res =>
    intro stp' hmem' hst
    by_cases he : stp'.stepId = stp.stepId
    · have hstp : stp' = stp := id_inj hnd stp' hmem' stp hmem he
      subst hstp
      rw [upd_self] at hst
      have hvd : v = .failed := Option.some.inj hst
      rcases hfail_case hvd with ⟨tool, rargs, msg, htool, hh, hentry⟩
      refine ⟨⟨w, upd_self⟩, tool, rargs, msg, htool, hh, ?_⟩
      rw [← hentry]
      exact List.mem_append_right _ (List.mem_singleton_self _)
    · rw [upd_other he] at hst
      rcases hinv.failed_res stp' hmem' hst with ⟨⟨wd, hwd⟩, tool, rargs, msg, htool, hh, hres⟩
      exact ⟨⟨wd, by rwa [upd_other he]⟩, tool, rargs, msg, htool, hh,
        List.mem_append_left _ hres⟩
  case skip_wave =>
    intro id hst
    by_cases he : id = stp.stepId
    · subst he; exact ⟨w, upd_self⟩
    · rw [upd_other he] at hst
      rcases hinv.skip_wave id hst with ⟨wd, hwd⟩
      exact ⟨wd, by rwa [upd_other he]⟩
  case resperm =>
    have htog : (steps.filter fun u =>
        settledB ⟨newouts, upd acc.status stp.stepId v, upd acc.wave stp.stepId w,
          acc.results ++ [entry]⟩ u.stepId).Perm
        ((steps.filter fun u => settledB acc u.stepId) ++ [stp]) := by
      apply filter_toggle hnd hmem
      · simp [settledB, hpend]
      · show settledB _ stp.stepId = true
        refine settledB_true (v := v) ?_ hv1
        exact upd_self
      · intro u hu hne
        show settledB acc u.stepId = settledB _ u.stepId
        simp only [settledB, upd_other hne]
      · exact fun u hu he => id_inj hnd u hu stp hmem he
    have h1 : (List.map StepRes.stepId (acc.results ++ [entry]))
        = List.map StepRes.stepId acc.results ++ [stp.stepId] := by
      rw [List.map_append]; simp [hent]
    rw [h1]
    have h2 : (List.map PlanStep.stepId
          ((steps.filter fun u => settledB acc u.stepId) ++ [stp]))
        = List.map PlanStep.stepId (steps.filter fun u => settledB acc u.stepId)
          ++ [stp.stepId] := by
      rw [List.map_append]; rfl
    refine (hinv.resperm.append (List.Perm.refl [stp.stepId])).trans ?_
    rw [← h2]
    exact (htog.map PlanStep.stepId).symm

theorem recordStep_preserve {tools : List ToolM} {pre acc : ExecState} {w : Nat}
    {stp : PlanStep} {id : String} (h : id ≠ stp.stepId) :
    (recordStep tools pre w acc stp).status id = acc.status id
      ∧ (recordStep tools pre w acc stp).wave id = acc.wave id
      ∧ (recordStep tools pre w acc stp).outputs id = acc.outputs id := by
  unfold recordStep
  split
  · exact ⟨upd_other h, upd_other h, rfl⟩
  · split
    · exact ⟨upd_other h, upd_other h, rfl⟩
    · split
      · exact ⟨upd_other h, upd_other h, upd_other h⟩
      · exact ⟨upd_other h, upd_other h, rfl⟩

theorem fold_record {steps : List PlanStep} {tools : List ToolM} {s₀ : ExecState} {w : Nat}
    (hnd : (steps.map PlanStep.stepId).Nodup) (hs0inv : Inv steps tools s₀ w) :
    ∀ (l : List PlanStep) (acc : ExecState),
      Inv steps tools acc (w + 1) →
      (∀ id, s₀.status id = some .done →
        acc.status id = some .done ∧ acc.wave id = s₀.wave id) →
      (∀ stp ∈ l, stp ∈ steps ∧ acc.status stp.stepId = some .pending
        ∧ ∀ d ∈ extractDeps stp.arguments, depReady s₀.status d = true) →
      (l.map PlanStep.stepId).Nodup →
      Inv steps tools (l.foldl (recordStep tools s₀ w) acc) (w + 1)
        ∧ ∀ id, s₀.status id = some .done →
          (l.foldl (recordStep tools s₀ w) acc).status id = some .done
            ∧ (l.foldl (recordStep tools s₀ w) acc).wave id = s₀.wave id := by
  intro l
  induction l with
  | nil => intro acc hinv hkeep _ _; exact ⟨hinv, hkeep⟩
  | cons stp tl ih =>
    intro acc hinv hkeep hready hndl
    rcases hready stp (List.mem_cons_self stp tl) with ⟨hmem, hpend, hdeps⟩
    have hinv' : Inv steps tools (recordStep tools s₀ w acc stp) (w + 1) := by
      unfold recordStep
      split
      · exact record_inv_core hnd hs0inv hinv hmem hpend hdeps hkeep
          (by decide) (by decide) (by decide) rfl (fun id h => rfl)
          (fun h => absurd h (by decide)) (fun h => absurd h (by decide))
      · rename_i tool htool
        split
        · exact record_inv_core hnd hs0inv hinv hmem hpend hdeps hkeep
            (by decide) (by decide) (by decide) rfl (fun id h => rfl)
            (fun h => absurd h (by decide)) (fun h => absurd h (by decide))
        · rename_i rargs hres
          split
          · rename_i out hh
            exact record_inv_core hnd hs0inv hinv hmem hpend hdeps hkeep
              (by decide) (by decide) (by decide) rfl (fun id h => upd_other h)
              (fun _ => ⟨tool, rargs, out, htool, hh, upd_self, rfl⟩)
              (fun h => absurd h (by decide))
          · rename_i msg hh
            exact record_inv_core hnd hs0inv hinv hmem hpend hdeps hkeep
              (by decide) (by decide) (by decide) rfl (fun id h => rfl)
              (fun h => absurd h (by decide))
              (fun _ => ⟨tool, rargs, msg, htool, hh, rfl⟩)
    have hkeep' : ∀ id, s₀.status id = some .done →
        (recordStep tools s₀ w acc stp).status id = some .done
          ∧ (recordStep tools s₀ w acc stp).wave id = s₀.wave id := by
      intro id hdn
      have hne : id ≠ stp.stepId := by
        intro he
        have h2 := (hkeep id hdn).1
        rw [he, hpend] at h2
        exact absurd (Option.some.inj h2) (by decide)
      rcases @recordStep_preserve tools s₀ acc w stp id hne
        with ⟨h1, h2, _⟩
      exact ⟨h1 ▸ (hkeep id hdn).1, h2 ▸ (hkeep id hdn).2⟩
    have hready' : ∀ u ∈ tl, u ∈ steps
        ∧ (recordStep tools s₀ w acc stp).status u.stepId = some .pending
        ∧ ∀ d ∈ extractDeps u.arguments, depReady s₀.status d = true := by
      intro u hu
      rcases hready u (List.mem_cons_of_mem _ hu) with ⟨hm, hp, hd⟩
      have hne : u.stepId ≠ stp.stepId := by
        intro he
        exact (List.nodup_cons.mp hndl).1 (he ▸ List.mem_map_of_mem PlanStep.stepId hu)
      exact ⟨hm, by rw [(recordStep_preserve hne).1]; exact hp, hd⟩
    exact ih (recordStep tools s₀ w acc stp) hinv' hkeep' hready'
      (List.nodup_cons.mp hndl).2

theorem execWave_inv {steps : List PlanStep} {tools : List ToolM} {s : ExecState} {w : Nat}
    (hnd : (steps.map PlanStep.stepId).Nodup) (hinv : Inv steps tools s w) :
    Inv steps tools (execWave tools s w (readySteps steps s.status)) (w + 1) := by
  have hndr : ((readySteps steps s.status).map PlanStep.stepId).Nodup :=
    hnd.sublist ((List.filter_sublist _).map PlanStep.stepId)
  exact (fold_record hnd hinv (readySteps steps s.status) s (inv_mono hinv)
    (fun id h => ⟨h, rfl⟩)
    (fun stp hstp => mem_readySteps.mp hstp) hndr).1

theorem runWaves_inv {steps : List PlanStep} {tools : List ToolM}
    (hnd : (steps.map PlanStep.stepId).Nodup) :
    ∀ (fuel w : Nat) (s : ExecState), Inv steps tools s w →
      ∃ w', Inv steps tools (runWaves tools steps fuel w s) w' := by
  intro fuel
  induction fuel with
  | zero => intro w s h; exact ⟨w, h⟩
  | succ n ih =>
    intro w s h
    rw [runWaves]
    cases hr : readySteps steps s.status with
    | nil => exact ⟨w, h⟩
    | cons r rs =>
      have hw := execWave_inv hnd h
      rw [hr] at hw
      exact ih (w + 1) (execWave tools s w (r :: rs)) hw

theorem resperm_toggle {steps : List PlanStep}
    (hnd : (steps.map PlanStep.stepId).Nodup) {acc : ExecState} {stp : PlanStep}
    (hmem : stp ∈ steps) (hpend : acc.status stp.stepId = some .pending)
    {v : PlanStepStatus} (hv : v ≠ .pending) {entry : StepRes}
    (hent : entry.stepId = stp.stepId) {s' : ExecState}
    (hst : s'.status = upd acc.status stp.stepId v)
    (hres : s'.results = acc.results ++ [entry])
    (hperm : (acc.results.map StepRes.stepId).Perm
      ((steps.filter fun u => settledB acc u.stepId).map PlanStep.stepId)) :
    (s'.results.map StepRes.stepId).Perm
      ((steps.filter fun u => settledB s' u.stepId).map PlanStep.stepId) := by
  have htog : (steps.filter fun u => settledB s' u.stepId).Perm
      ((steps.filter fun u => settledB acc u.stepId) ++ [stp]) := by
    apply filter_toggle hnd hmem
    · simp [settledB, hpend]
    · show settledB s' stp.stepId = true
      refine settledB_true (v := v) ?_ hv
      rw [hst]; exact upd_self
    · intro u hu hne
      show settledB acc u.stepId = settledB s' u.stepId
      simp only [settledB, hst, upd_other hne]
    · exact fun u hu he => id_inj hnd u hu stp hmem he
  rw [hres]
  have h1 : (List.map StepRes.stepId (acc.results ++ [entry]))
      = List.map StepRes.stepId acc.results ++ [stp.stepId] := by
    rw [List.map_append]; simp [hent]
  rw [h1]
  have h2 : (List.map PlanStep.stepId
        ((steps.filter fun u => settledB acc u.stepId) ++ [stp]))
      = List.map PlanStep.stepId (steps.filter fun u => settledB acc u.stepId)
        ++ [stp.stepId] := by
    rw [List.map_append]; rfl
  refine (hperm.append (List.Perm.refl [stp.stepId])).trans ?_
  rw [← h2]
  exact (htog.map PlanStep.stepId).symm

theorem sweep_go {steps : List PlanStep}
    (hnd : (steps.map PlanStep.stepId).Nodup) :
    ∀ (l : List PlanStep) (acc : ExecState),
      (∀ x ∈ l, x ∈ steps) → (l.map PlanStep.stepId).Nodup →
      ((acc.results.map StepRes.stepId).Perm
        ((steps.filter fun u => settledB acc u.stepId).map PlanStep.stepId)) →
      (∀ id, (l.foldl sweepStep acc).wave id = acc.wave id)
      ∧ (∀ id, (l.foldl sweepStep acc).outputs id = acc.outputs id)
      ∧ (∀ id, acc.status id ≠ some .pending →
          (l.foldl sweepStep acc).status id = acc.status id)
      ∧ (∀ id v, (l.foldl sweepStep acc).status id = some v →
          acc.status id = some v ∨ (v = .skipped ∧ acc.status id = some .pending))
      ∧ (∀ r ∈ acc.results, r ∈ (l.foldl sweepStep acc).results)
      ∧ (∀ stp ∈ l, acc.status stp.stepId = some .pending →
          (l.foldl sweepStep acc).status stp.stepId = some .skipped
          ∧ (⟨stp.stepId, stp.toolName, vToEF stp.arguments, .null,
              some "Skipped: dependencies not satisfied"⟩ : StepRes)
            ∈ (l.foldl sweepStep acc).results)
      ∧ (((l.foldl sweepStep acc).results.map StepRes.stepId).Perm
          ((steps.filter fun u =>
            settledB (l.foldl sweepStep acc) u.stepId).map PlanStep.stepId))
      ∧ (∀ id, (l.foldl sweepStep acc).status id = none ↔ acc.status id = none) := by
  intro l
  induction l with
  | nil =>
    intro acc _ _ hperm
    exact ⟨fun _ => rfl, fun _ => rfl, fun _ _ => rfl, fun _ _ h => Or.inl h,
      fun _ h => h, fun _ h => absurd h (List.not_mem_nil _), hperm, fun _ => Iff.rfl⟩
  | cons u tl ih =>
    intro acc hsub hndl hperm
    have hfold : (u :: tl).foldl sweepStep acc = tl.foldl sweepStep (sweepStep acc u) := rfl
    by_cases hc : acc.status u.stepId = some .pending
    · have hcb : (acc.status u.stepId == some PlanStepStatus.pending) = true := by
        simp [hc]
      have hstep : sweepStep acc u = { acc with
          status := upd acc.status u.stepId .skipped
          results := acc.results ++
            [⟨u.stepId, u.toolName, vToEF u.arguments, .null,
              some "Skipped: dependencies not satisfied"⟩] } := by
        simp [sweepStep, hcb]
      have hsst : (sweepStep acc u).status = upd acc.status u.stepId .skipped := by
        rw [hstep]
      have hsres : (sweepStep acc u).results = acc.results ++
          [⟨u.stepId, u.toolName, vToEF u.arguments, .null,
            some "Skipped: dependencies not satisfied"⟩] := by
        rw [hstep]
      have hswave : (sweepStep acc u).wave = acc.wave := by rw [hstep]
      have hsout : (sweepStep acc u).outputs = acc.outputs := by rw [hstep]
      have hperm' := resperm_toggle hnd (hsub u (List.mem_cons_self u tl)) hc
        (v := PlanStepStatus.skipped) (by decide)
        (rfl : (⟨u.stepId, u.toolName, vToEF u.arguments, .null,
          some "Skipped: dependencies not satisfied"⟩ : StepRes).stepId = u.stepId)
        hsst hsres hperm
      have htl := ih (sweepStep acc u) (fun x h => hsub x (List.mem_cons_of_mem _ h))
        (List.nodup_cons.mp hndl).2 hperm'
      rcases htl with ⟨w1, o1, s1, s2, r1, p1, pm, d1⟩
      rw [hfold]
      refine ⟨?_, ?_, ?_, ?_, ?_, ?_, pm, ?_⟩
      · intro id; rw [w1 id, hswave]
      · intro id; rw [o1 id, hsout]
      · intro id hne
        have hne2 : id ≠ u.stepId := fun he => hne (he ▸ hc)
        have hpre : (sweepStep acc u).status id ≠ some PlanStepStatus.pending := by
          rw [hsst, upd_other hne2]
          exact hne
        rw [s1 id hpre, hsst, upd_other hne2]
      · intro id v hv
        rcases s2 id v hv with h | ⟨hv2, hp⟩
        · rw [hsst] at h
          by_cases he : id = u.stepId
          · subst he
            rw [upd_self] at h
            exact Or.inr ⟨(Option.some.inj h).symm, hc⟩
          · rw [upd_other he] at h
            exact Or.inl h
        · rw [hsst] at hp
          by_cases he : id = u.stepId
          · subst he
            rw [upd_self] at hp
            exact absurd (Option.some.inj hp) (by decide)
          · rw [upd_other he] at hp
            exact Or.inr ⟨hv2, hp⟩
      · intro r hr
        apply r1
        rw [hsres]
        exact List.mem_append_left _ hr
      · intro stp hstp hpend2
        cases List.mem_cons.mp hstp with
        | inl he =>
          subst he
          constructor
          · have hpre : (sweepStep acc stp).status stp.stepId
                ≠ some PlanStepStatus.pending := by
              rw [hsst, upd_self]
              decide
            rw [s1 stp.stepId hpre, hsst, upd_self]
          · apply r1
            rw [hsres]
            exact List.mem_append_right _ (List.mem_singleton_self _)
        | inr he =>
          apply p1 stp he
          rw [hsst]
          have hne : stp.stepId ≠ u.stepId := by
            intro h2
            exact (List.nodup_cons.mp hndl).1 (h2 ▸ List.mem_map_of_mem PlanStep.stepId he)
          rw [upd_other hne]
          exact hpend2
      · intro id
        rw [d1 id, hsst]
        by_cases he : id = u.stepId
        · subst he
          rw [upd_self]
          simp [hc]
        · rw [upd_other he]
    · have hcb : (acc.status u.stepId == some PlanStepStatus.pending) = false := by
        simp [hc]
      have hstep : sweepStep acc u = acc := by simp [sweepStep, hcb]
      rw [hfold, hstep]
      have htl := ih acc (fun x h => hsub x (List.mem_cons_of_mem _ h))
        (List.nodup_cons.mp hndl).2 hperm
      rcases htl with ⟨w1, o1, s1, s2, r1, p1, pm, d1⟩
      refine ⟨w1, o1, s1, s2, r1, ?_, pm, d1⟩
      intro stp hstp hpend2
      cases List.mem_cons.mp hstp with
      | inl he => subst he; exact absurd hpend2 hc
      | inr he => exact p1 stp he hpend2

theorem execStateOf_final (steps : List PlanStep) (tools : List ToolM)
    (hnd : (steps.map PlanStep.stepId).Nodup) :
    FinalS steps tools (execStateOf steps tools) := by
  obtain ⟨w', hinv⟩ := runWaves_inv hnd (steps.length + 1) 0 (initState steps)
    (init_inv steps tools)
  have hgo := sweep_go hnd steps (runWaves tools steps (steps.length + 1) 0 (initState steps))
    (fun x h => h) hnd hinv.resperm
  rcases hgo with ⟨w1, o1, s1, s2, r1, p1, pm, d1⟩
  have hfe : execStateOf steps tools
      = steps.foldl sweepStep (runWaves tools steps (steps.length + 1) 0 (initState steps)) :=
    rfl
  rw [hfe]
  set s := runWaves tools steps (steps.length + 1) 0 (initState steps) with hs
  set f := steps.foldl sweepStep s with hf
  have hdomf : ∀ id, (f.status id).isSome ↔ id ∈ steps.map PlanStep.stepId := by
    intro id
    rw [← hinv.dom id]
    cases hcs : s.status id with
    | none => simp [(d1 id).mpr hcs]
    | some v =>
      have : f.status id ≠ none := fun h2 => by
        rw [(d1 id).mp h2] at hcs
        exact Option.noConfusion hcs
      rcases Option.ne_none_iff_exists.mp this with ⟨v2, hv2⟩
      simp [← hv2, hcs]
  constructor
  · exact hdomf
  · intro stp hmem
    by_cases hc : s.status stp.stepId = some .pending
    · rcases p1 stp hmem hc with ⟨hsk, _⟩
      exact ⟨.skipped, hsk, by decide, by decide, by decide⟩
    · have hfs := s1 stp.stepId hc
      have hmm : (s.status stp.stepId).isSome := (hinv.dom stp.stepId).mpr
        (List.mem_map_of_mem _ hmem)
      cases hcs : s.status stp.stepId with
      | none => rw [hcs] at hmm; exact absurd hmm (by simp)
      | some v =>
        refine ⟨v, by rw [hfs, hcs], ?_, ?_, ?_⟩
        · intro he; rw [he] at hcs; exact hc hcs
        · intro he; rw [he] at hcs; exact (hinv.no_exec stp.stepId).1 hcs
        · intro he; rw [he] at hcs; exact (hinv.no_exec stp.stepId).2 hcs
  · intro stp hmem wd hw d hd
    rw [w1 stp.stepId] at hw
    rcases hinv.disp stp hmem wd hw d hd with ⟨ds, hde, hds, wdd, hwdd, hlt⟩
    refine ⟨ds, hde, ?_, wdd, ?_, hlt⟩
    · rw [s1 ds (by rw [hds]; decide)]
      exact hds
    · rw [w1 ds]
      exact hwdd
  · intro stp hmem hst
    have hsv : s.status stp.stepId = some .done := by
      rcases s2 stp.stepId _ hst with h | ⟨hv2, _⟩
      · exact h
      · exact absurd hv2 (by decide)
    rcases hinv.done_res stp hmem hsv with ⟨⟨wd, hwd⟩, tool, rargs, out, htool, hh, hout, hres⟩
    exact ⟨⟨wd, by rw [w1]; exact hwd⟩, tool, rargs, out, htool, hh,
      by rw [o1]; exact hout, r1 _ hres⟩
  · intro stp hmem hst
    have hsv : s.status stp.stepId = some .failed := by
      rcases s2 stp.stepId _ hst with h | ⟨hv2, _⟩
      · exact h
      · exact absurd hv2 (by decide)
    rcases hinv.failed_res stp hmem hsv with ⟨⟨wd, hwd⟩, tool, rargs, msg, htool, hh, hres⟩
    exact ⟨⟨wd, by rw [w1]; exact hwd⟩, tool, rargs, msg, htool, hh, r1 _ hres⟩
  · intro stp hmem hst hwn
    rcases s2 stp.stepId _ hst with h | ⟨_, hp⟩
    · rcases hinv.skip_wave stp.stepId h with ⟨wd, hwd⟩
      rw [w1 stp.stepId, hwd] at hwn
      exact Option.noConfusion hwn
    · exact (p1 stp hmem hp).2
  · refine pm.trans ?_
    have hall : (steps.filter fun u => settledB f u.stepId) = steps := by
      apply List.filter_eq_self.mpr
      intro stp hmem
      by_cases hc : s.status stp.stepId = some .pending
      · exact settledB_true (p1 stp hmem hc).1 (by decide)
      · have hmm : (s.status stp.stepId).isSome := (hinv.dom stp.stepId).mpr
          (List.mem_map_of_mem _ hmem)
        cases hcs : s.status stp.stepId with
        | none => rw [hcs] at hmm; exact absurd hmm (by simp)
        | some v =>
          refine settledB_true (v := v) (by rw [s1 stp.stepId hc]; exact hcs) ?_
          intro he; rw [he] at hcs; exact hc hcs
    rw [hall]

theorem stepOrderGo_none {l : List PlanStep} {id : String}
    (h : id ∉ l.map PlanStep.stepId) : ∀ base, stepOrderGo l base id = none := by
  induction l with
  | nil => intro base; rfl
  | cons u tl ih =>
    intro base
    have h1 : id ∉ tl.map PlanStep.stepId := fun h2 => h (List.mem_cons_of_mem _ h2)
    have h2 : u.stepId ≠ id := fun h2 => h (h2 ▸ List.mem_cons_self _ _)
    rw [stepOrderGo, ih h1 (base + 1)]
    simp [h2]

theorem stepOrderGo_find {l : List PlanStep} :
    (l.map PlanStep.stepId).Nodup →
    ∀ (base i : Nat) (hi : i < l.length),
      stepOrderGo l base ((l.get ⟨i, hi⟩).stepId) = some (base + i) := by
  induction l with
  | nil => intro _ base i hi; exact absurd hi (by simp)
  | cons u tl ih =>
    intro hnd base i hi
    cases i with
    | zero =>
      have hnin : u.stepId ∉ tl.map PlanStep.stepId := (List.nodup_cons.mp hnd).1
      rw [show ((u :: tl).get ⟨0, hi⟩) = u from rfl]
      rw [stepOrderGo, stepOrderGo_none hnin (base + 1)]
      simp
    | succ j =>
      have hj : j < tl.length := by simpa using hi
      rw [show ((u :: tl).get ⟨j + 1, hi⟩) = tl.get ⟨j, hj⟩ from rfl]
      rw [stepOrderGo, ih (List.nodup_cons.mp hnd).2 (base + 1) j hj]
      simp
      omega

theorem stepOrderOf_get {steps : List PlanStep}
    (hnd : (steps.map PlanStep.stepId).Nodup) (i : Nat) (hi : i < steps.length) :
    stepOrderOf steps ((steps.get ⟨i, hi⟩).stepId) = i := by
  rw [stepOrderOf, stepOrderGo_find hnd 0 i hi]
  simp

theorem stepOrder_map {steps : List PlanStep}
    (hnd : (steps.map PlanStep.stepId).Nodup) :
    steps.map (fun stp => stepOrderOf steps stp.stepId) = List.range steps.length := by
  apply List.ext_get (by simp)
  intro i h1 h2
  rw [List.get_map]
  rw [stepOrderOf_get hnd i (by simpa using h1)]
  simp

theorem get_stepOrderOf {steps : List PlanStep}
    (hnd : (steps.map PlanStep.stepId).Nodup) {id : String}
    (h : id ∈ steps.map PlanStep.stepId) :
    ∃ hi : stepOrderOf steps id < steps.length,
      (steps.get ⟨stepOrderOf steps id, hi⟩).stepId = id := by
  rcases List.mem_iff_get.mp (by
    rcases List.mem_map.mp h with ⟨u, hu, he⟩
    exact he ▸ List.mem_map_of_mem PlanStep.stepId hu) with ⟨⟨j, hj⟩, hget⟩
  have hj2 : j < steps.length := by simpa using hj
  have hge : (steps.get ⟨j, hj2⟩).stepId = id := by
    rw [← hget]
    simp [List.get_map]
  have := stepOrderOf_get hnd j hj2
  rw [hge] at this
  rw [this]
  exact ⟨hj2, hge⟩

/-- C3: for distinct step ids, executePlan returns exactly one StepResult per
input step, and the i-th result carries the i-th input step's id — the final
sort puts results back into input order regardless of completion order. -/
theorem c3_result_order (steps : List PlanStep) (tools : List ToolM)
    (hnd : (steps.map PlanStep.stepId).Nodup) :
    (executePlanM steps tools).map StepRes.stepId = steps.map PlanStep.stepId := by
  have hfin := execStateOf_final steps tools hnd
  have hperm : (sortResults steps (execStateOf steps tools).results).Perm
      (execStateOf steps tools).results := List.perm_insertionSort _ _
  have hidsperm : ((sortResults steps (execStateOf steps tools).results).map
      StepRes.stepId).Perm (steps.map PlanStep.stepId) :=
    (hperm.map _).trans hfin.resperm
  have hsorted : (sortResults steps (execStateOf steps tools).results).Sorted
      (fun a b => stepOrderOf steps a.stepId ≤ stepOrderOf steps b.stepId) := by
    haveI h1 : IsTotal StepRes (fun a b => stepOrderOf steps a.stepId ≤ stepOrderOf steps b.stepId) :=
      ⟨fun a b => Nat.le_total _ _⟩
    haveI h2 : IsTrans StepRes (fun a b => stepOrderOf steps a.stepId ≤ stepOrderOf steps b.stepId) :=
      ⟨fun a b c ha hb => Nat.le_trans ha hb⟩
    exact List.sorted_insertionSort _ _
  have hkey : ((sortResults steps (execStateOf steps tools).results).map
      (fun r => stepOrderOf steps r.stepId)) = List.range steps.length := by
    refine List.eq_of_perm_of_sorted ?_ ?_ (List.sorted_le_range _)
    · have h1 : ((sortResults steps (execStateOf steps tools).results).map
          (fun r => stepOrderOf steps r.stepId))
          = ((sortResults steps (execStateOf steps tools).results).map
              StepRes.stepId).map (stepOrderOf steps) := by
        rw [List.map_map]; rfl
      have h2 : (steps.map PlanStep.stepId).map (stepOrderOf steps)
          = steps.map (fun stp => stepOrderOf steps stp.stepId) := by
        rw [List.map_map]; rfl
      rw [h1, ← stepOrder_map hnd, ← h2]
      exact hidsperm.map _
    · rw [List.Sorted, List.pairwise_map]
      exact hsorted
  have hlen : (sortResults steps (execStateOf steps tools).results).length
      = steps.length := by
    have := hidsperm.length_eq
    simpa using this
  apply List.ext_get (by simpa using hlen)
  intro i h1 h2
  have hi : i < (sortResults steps (execStateOf steps tools).results).length := by
    simpa using h1
  have hi2 : i < steps.length := by simpa using h2
  rw [List.get_map, List.get_map]
  have hk : stepOrderOf steps
      ((sortResults steps (execStateOf steps tools).results).get ⟨i, hi⟩).stepId = i := by
    have := congrArg (fun l => l.get? i) hkey
    simp only [List.get?_map] at this
    rw [List.get?_eq_get hi] at this
    rw [List.get?_eq_get (by simpa using hi2)] at this
    simp at this
    convert this using 2
  have hmm : ((sortResults steps (execStateOf steps tools).results).get ⟨i, hi⟩).stepId
      ∈ steps.map PlanStep.stepId := by
    apply hidsperm.mem_iff.mp
    exact List.mem_map_of_mem _ (List.get_mem _ _ _)
  rcases get_stepOrderOf hnd hmm with ⟨hlt, hgeq⟩
  have hfinx : (⟨stepOrderOf steps
        ((sortResults steps (execStateOf steps tools).results).get ⟨i, hi⟩).stepId, hlt⟩
        : Fin steps.length) = ⟨i, hi2⟩ := Fin.ext hk
  rw [hfinx] at hgeq
  exact hgeq.symm

theorem filter_key_nil {l : List StepRes} {id : String}
    (h : id ∉ l.map StepRes.stepId) : l.filter (fun x => x.stepId == id) = [] := by
  induction l with
  | nil => rfl
  | cons u tl ih =>
    have h1 : u.stepId ≠ id := fun he => h (he ▸ List.mem_cons_self _ _)
    have h2 : id ∉ tl.map StepRes.stepId := fun he => h (List.mem_cons_of_mem _ he)
    simp [List.filter_cons, h1, ih h2]

theorem filter_key_singleton {l : List StepRes} (hnd : (l.map StepRes.stepId).Nodup)
    {r : StepRes} (hmem : r ∈ l) : l.filter (fun x => x.stepId == r.stepId) = [r] := by
  induction l with
  | nil => exact absurd hmem (List.not_mem_nil r)
  | cons u tl ih =>
    cases List.mem_cons.mp hmem with
    | inl he =>
      subst he
      have hnin : r.stepId ∉ tl.map StepRes.stepId := (List.nodup_cons.mp hnd).1
      simp [List.filter_cons, filter_key_nil hnin]
    | inr he =>
      have hne : u.stepId ≠ r.stepId := by
        intro h2
        exact (List.nodup_cons.mp hnd).1 (h2 ▸ List.mem_map_of_mem StepRes.stepId he)
      simp [List.filter_cons, hne, ih (List.nodup_cons.mp hnd).2 he]

theorem results_nodup {steps : List PlanStep} {tools : List ToolM}
    (hnd : (steps.map PlanStep.stepId).Nodup) :
    ((executePlanM steps tools).map StepRes.stepId).Nodup := by
  have hfin := execStateOf_final steps tools hnd
  have hperm : (executePlanM steps tools).Perm (execStateOf steps tools).results :=
    List.perm_insertionSort _ _
  exact ((hperm.map _).trans hfin.resperm).nodup_iff.mpr hnd

theorem results_mem {steps : List PlanStep} {tools : List ToolM} {r : StepRes}
    (h : r ∈ (execStateOf steps tools).results) : r ∈ executePlanM steps tools :=
  (List.perm_insertionSort _ _).symm.subset h

theorem poisoned_nowave {steps : List PlanStep} {tools : List ToolM}
    (hnd : (steps.map PlanStep.stepId).Nodup) {fail : PlanStep}
    (hfailed : (execStateOf steps tools).status fail.stepId ≠ some .done) :
    ∀ t, Relation.TransGen (dependsOn steps) t fail →
      t ∈ steps ∧ (execStateOf steps tools).wave t.stepId = none := by
  have hfin := execStateOf_final steps tools hnd
  intro t ht
  induction ht using Relation.TransGen.head_induction_on with
  | base h =>
    rename_i a
    rcases h with ⟨htm, _, hdep⟩
    refine ⟨htm, ?_⟩
    cases hwc : (execStateOf steps tools).wave a.stepId with
    | none => rfl
    | some w =>
      exfalso
      rcases hfin.disp a htm w hwc _ hdep with ⟨ds, hde, hds, _⟩
      have hdf : ds = fail.stepId := (Value.str.inj (Option.some.inj hde)).symm
      exact hfailed (hdf ▸ hds)
  | ih h htr ihq =>
    rename_i a c
    rcases h with ⟨htm, hcm, hdep⟩
    refine ⟨htm, ?_⟩
    cases hwc : (execStateOf steps tools).wave a.stepId with
    | none => rfl
    | some w =>
      exfalso
      rcases hfin.disp a htm w hwc _ hdep with ⟨ds, hde, hds, _⟩
      have hdsc : ds = c.stepId := (Value.str.inj (Option.some.inj hde)).symm
      rcases hfin.done_res c hcm (hdsc ▸ hds) with ⟨⟨wd, hwd⟩, _⟩
      rw [ihq.2] at hwd
      exact Option.noConfusion hwd

/-- C1: when a step's handler throws, that step's result carries the
handler's error message with output null, and every step that transitively
depends on it (through the extracted dependency ids) is never dispatched
(no wave number is ever recorded for it) and is reaped by the final sweep
with status skipped, output null, error "Skipped: dependencies not
satisfied" and its original unresolved arguments in the result. -/
theorem c1_failure_propagation (steps : List PlanStep) (tools : List ToolM)
    (hnd : (steps.map PlanStep.stepId).Nodup) (fail : PlanStep) (hmem : fail ∈ steps)
    (hfailed : (execStateOf steps tools).status fail.stepId = some .failed) :
    (∃ tool rargs msg, lookupToolLast tools fail.toolName = some tool
      ∧ tool.handler rargs = .error msg
      ∧ (executePlanM steps tools).filter (fun r => r.stepId == fail.stepId)
          = [⟨fail.stepId, fail.toolName, rargs, .null, some msg⟩])
    ∧ ∀ t, Relation.TransGen (dependsOn steps) t fail →
        (execStateOf steps tools).wave t.stepId = none
        ∧ (execStateOf steps tools).status t.stepId = some .skipped
        ∧ (executePlanM steps tools).filter (fun r => r.stepId == t.stepId)
            = [⟨t.stepId, t.toolName, vToEF t.arguments, .null,
                some "Skipped: dependencies not satisfied"⟩] := by
  have hfin := execStateOf_final steps tools hnd
  have hnd2 : ((executePlanM steps tools).map StepRes.stepId).Nodup := results_nodup hnd
  have hnotdone : (execStateOf steps tools).status fail.stepId ≠ some .done := by
    rw [hfailed]
    intro h
    exact absurd (Option.some.inj h) (by decide)
  constructor
  · rcases hfin.failed_res fail hmem hfailed with ⟨_, tool, rargs, msg, htool, hh, hres⟩
    exact ⟨tool, rargs, msg, htool, hh, filter_key_singleton hnd2 (results_mem hres)⟩
  · intro t ht
    obtain ⟨htm, hwn⟩ := poisoned_nowave hnd hnotdone t ht
    rcases hfin.settled t htm with ⟨v, hv, hvp, hve, hvt⟩
    have hvs : v = .skipped := by
      cases v with
      | pending => exact absurd rfl hvp
      | executing => exact absurd rfl hve
      | timeout => exact absurd rfl hvt
      | done =>
        rcases hfin.done_res t htm hv with ⟨⟨wd, hwd⟩, _⟩
        rw [hwn] at hwd
        exact Option.noConfusion hwd
      | failed =>
        rcases hfin.failed_res t htm hv with ⟨⟨wd, hwd⟩, _⟩
        rw [hwn] at hwd
        exact Option.noConfusion hwd
      | skipped => rfl
    subst hvs
    refine ⟨hwn, hv, ?_⟩
    exact filter_key_singleton hnd2 (results_mem (hfin.skip_nowave t htm hv hwn))

/-- C2: a step is handed to tryExecuteStep only in a wave strictly after
every extracted dependency became done: each extracted dependency entry of
a dispatched step is the id of a plan step whose status is done and whose
own wave number is strictly smaller; and every done step was dispatched. -/
theorem c2_dispatch_after_deps (steps : List PlanStep) (tools : List ToolM)
    (hnd : (steps.map PlanStep.stepId).Nodup) :
    (∀ stp ∈ steps, ∀ w, (execStateOf steps tools).wave stp.stepId = some w →
      ∀ d ∈ extractDeps stp.arguments, ∃ ds, d = some (Value.str ds)
        ∧ (∃ du ∈ steps, du.stepId = ds)
        ∧ (execStateOf steps tools).status ds = some .done
        ∧ ∃ wd, (execStateOf steps tools).wave ds = some wd ∧ wd < w)
    ∧ ∀ stp ∈ steps, (execStateOf steps tools).status stp.stepId = some .done →
        ∃ w, (execStateOf steps tools).wave stp.stepId = some w := by
  have hfin := execStateOf_final steps tools hnd
  constructor
  · intro stp hmem w hw d hd
    rcases hfin.disp stp hmem w hw d hd with ⟨ds, hde, hds, wd, hwd, hlt⟩
    have hmm : ds ∈ steps.map PlanStep.stepId := (hfin.dom ds).mp (by simp [hds])
    rcases List.mem_map.mp hmm with ⟨du, hdu, hde2⟩
    exact ⟨ds, hde, ⟨du, hdu, hde2⟩, hds, wd, hwd, hlt⟩
  · intro stp hmem hdone
    exact (hfin.done_res stp hmem hdone).1

/-- C10 (amended): under the executor's dispatch precondition — every
extracted dependency is a step id whose output is present and not
undefined — argument resolution of a well-shaped argument record (one
whose plain records do not themselves carry the reference key patterns)
never throws at all; in particular the "Step ... output not found" branch
is unreachable.  Without the shape condition the branch is reachable: see
the counterexample. -/
theorem c10_resolution_safety (args : VFields) (O : String → Option EVal)
    (hwf : wfArgs args = true)
    (hdeps : ∀ d ∈ extractDeps args, ∃ s, d = some (Value.str s)
      ∧ ∃ out, O s = some out ∧ out ≠ EVal.undef) :
    ∃ res, resolveArguments args O = .ok res := by
  have hwf2 : wfV (.obj args) = true := hwf
  simp only [wfV, Bool.and_eq_true, Bool.not_eq_true'] at hwf2
  have hsh : ¬(vHasKey args "$fromStep" && vHasKey args "$outputKey") = true := by
    simp [hwf2.1.1]
  have hdeps2 : ∀ d ∈ collectDepsF args, DepOk O d := by
    intro d hd
    apply hdeps
    rw [extractDeps, collectDeps, if_neg hsh]
    cases h1 : vLookup args "$fromTemplateString" with
    | none => cases h2 : vLookup args "$values" with
      | none => exact hd
      | some v2 => cases v2 <;> exact hd
    | some v1 =>
      cases h2 : vLookup args "$values" with
      | none => exact hd
      | some v2 =>
        cases v2 with
        | arr vl =>
          exfalso
          have hb := hwf2.1.2
          rw [show vHasKey args "$fromTemplateString" = true from by simp [vHasKey, h1]] at hb
          rw [show vHasKey args "$values" = true from by simp [vHasKey, h2]] at hb
          simp at hb
        | _ => exact hd
  exact resolve_ok_fields O args hwf2.2 hdeps2

/-- C1 witness: a two-step plan whose first handler throws "boom" and whose
second step depends on the first. -/
theorem c1_failure_propagation_witness :
    ((exPlan.map PlanStep.stepId).Nodup
      ∧ (execStateOf exPlan exTools).status "a" = some .failed)
    ∧ ((∃ tool rargs msg, lookupToolLast exTools exStepA.toolName = some tool
        ∧ tool.handler rargs = .error msg
        ∧ (executePlanM exPlan exTools).filter (fun r => r.stepId == exStepA.stepId)
            = [⟨exStepA.stepId, exStepA.toolName, rargs, .null, some msg⟩])
      ∧ ∀ t, Relation.TransGen (dependsOn exPlan) t exStepA →
          (execStateOf exPlan exTools).wave t.stepId = none
          ∧ (execStateOf exPlan exTools).status t.stepId = some .skipped
          ∧ (executePlanM exPlan exTools).filter (fun r => r.stepId == t.stepId)
              = [⟨t.stepId, t.toolName, vToEF t.arguments, .null,
                  some "Skipped: dependencies not satisfied"⟩]) :=
  ⟨⟨by decide, by decide⟩,
    c1_failure_propagation exPlan exTools (by decide) exStepA (by decide) (by decide)⟩

-- C2 witness scenario: a done chain

/-- C2 witness: a done chain a → b; b runs in wave 1 after a ran in wave 0. -/
theorem c2_dispatch_after_deps_witness :
    ((exPlan2.map PlanStep.stepId).Nodup
      ∧ exStepB ∈ exPlan2
      ∧ (execStateOf exPlan2 exTools2).wave exStepB.stepId = some 1
      ∧ some (Value.str "a") ∈ extractDeps exStepB.arguments)
    ∧ (∃ ds, some (Value.str "a") = some (Value.str ds)
        ∧ (∃ du ∈ exPlan2, du.stepId = ds)
        ∧ (execStateOf exPlan2 exTools2).status ds = some .done
        ∧ ∃ wd, (execStateOf exPlan2 exTools2).wave ds = some wd ∧ wd < 1) :=
  ⟨⟨by decide, by decide, by decide, by decide⟩,
    (c2_dispatch_after_deps exPlan2 exTools2 (by decide)).1 exStepB (by decide) 1 (by decide)
      (some (Value.str "a")) (by decide)⟩

-- C10 counterexample

/-- C10 counterexample: a dispatched step whose extracted dependencies are
all done can still throw "Step ... output not found".  The argument record
is itself reference-shaped, so dependency extraction reports only its
$fromStep property ("s1") and never visits the inner reference to the
nonexistent step "ghost"; resolution, which starts below the record, does
visit it and throws, ending the step skipped with the resolution error. -/
theorem c10_dispatch_throw_counterexample :
    (execStateOf cxPlanC10 exTools2).wave "s2" = some 1
    ∧ extractDeps cxArgs = [some (Value.str "s1")]
    ∧ (execStateOf cxPlanC10 exTools2).status "s1" = some .done
    ∧ (⟨"s2", "tB", .nil, .null,
        some "Failed to resolve arguments: Step ghost output not found"⟩ : StepRes)
        ∈ executePlanM cxPlanC10 exTools2 := by
  refine ⟨by decide, by decide, by decide, by decide⟩

-- C10 witness

/-- C10 witness: resolution of a well-shaped record with one dependency
reference against an outputs map holding that step's output. -/
theorem c10_resolution_safety_witness :
    wfArgs wArgs = true ∧ ∃ res, resolveArguments wArgs wO = .ok res :=
  ⟨by decide, c10_resolution_safety wArgs wO (by decide)
    (by
      intro d hd
      rw [show extractDeps wArgs = [some (Value.str "s")] from rfl] at hd
      rw [List.mem_singleton.mp hd]
      exact ⟨"s", rfl, .num 5, rfl, by decide⟩)⟩

-- C3 witness

/-- C3 witness: the two-step chain returns one result per step in input
order. -/
theorem c3_result_order_witness :
    (exPlan2.map PlanStep.stepId).Nodup
    ∧ (executePlanM exPlan2 exTools2).map StepRes.stepId = exPlan2.map PlanStep.stepId :=
  ⟨by decide, c3_result_order exPlan2 exTools2 (by decide)⟩

end Planner
